import Mathlib

/-!
# Verification of the libbmc citation-resolution pipeline

Shallow embedding of the parts of `libbmc` (Python) relevant to the
citation-resolution pipeline: `libbmc/tools.py`, `libbmc/doi.py`,
`libbmc/repositories/arxiv.py`, `libbmc/repositories/hal.py`,
`libbmc/isbn.py`, `libbmc/citations/plaintext.py` and
`libbmc/citations/bbl.py`.

Python strings are modelled as `List Char`.  Python's `re` module is
modelled by deterministic functions specialised to the concrete patterns
appearing in the source (each such function carries a doc comment naming
the pattern it implements); character classes (`\s`, `\w`, digits) are
modelled over the ASCII alphabet, which covers every string class the
library manipulates.  Network calls and subprocess invocations are
modelled as oracle parameters.  Python exceptions raised by the code
(IndexError, UnboundLocalError/NameError, AttributeError) are modelled
with `Except`.
-/

set_option maxRecDepth 10000

/-- Character class of Python's `str.split()` / `str.strip()` whitespace
(ASCII part): space, tab, newline, carriage return, vertical tab, form
feed. -/
def isPySpace (c : Char) : Bool :=
  c == ' ' || c == '\t' || c == '\n' || c == '\r' || c == '\x0b' || c == '\x0c'

/-- Python word character (`\w`, ASCII part): alphanumeric or underscore. -/
def isPyWord (c : Char) : Bool :=
  c.isAlphanum || c == '_'

/-- Split a string into its maximal runs of non-whitespace characters,
dropping all whitespace: the model of Python's `text.split()` (no
separator argument).  The accumulator holds the current run, reversed. -/
def pySplitGo : List Char → List Char → List (List Char)
  | [], acc => if acc.isEmpty then [] else [acc.reverse]
  | c :: rest, acc =>
      if isPySpace c then
        if acc.isEmpty then pySplitGo rest [] else acc.reverse :: pySplitGo rest []
      else
        pySplitGo rest (c :: acc)

/-- Model of Python `text.split()`. -/
def pySplit (s : List Char) : List (List Char) :=
  pySplitGo s []

/-- Model of Python `' '.join(tokens)`. -/
def joinSpace : List (List Char) → List Char
  | [] => []
  | [t] => t
  | t :: rest => t ++ ' ' :: joinSpace rest

/-- Model of `libbmc.tools.clean_whitespaces`:
`return ' '.join(text.strip().split())`.  Since `split()` with no
argument already discards leading and trailing whitespace, the
`.strip()` is the identity on the result and is omitted from the model. -/
def clean_whitespaces (text : List Char) : List Char :=
  joinSpace (pySplit text)

/-- Model of `libbmc.tools.remove_duplicates`: `return list(set(some_list))`.
Python's `set` iteration order is unspecified; the model picks one
duplicate-free enumeration (`List.dedup`).  Every theorem below that
depends on this function depends only on the membership (or on singleton
results, where the order is forced). -/
def remove_duplicates (l : List (List Char)) : List (List Char) :=
  l.dedup

/-- Model of `libbmc.tools.batch`: the generator

```
item = iter(iterable)
while True:
    batch_iterator = islice(item, size)
    yield chain([next(batch_iterator)], batch_iterator)
```

under the semantics the function's own doctest documents (each batch
fully consumed before the next is requested; the generator terminates
when `next` raises `StopIteration`): it yields the successive groups of
at most `size` elements.  With `size = 0`, `islice(item, 0)` is empty,
`next` raises immediately and no batch is produced. -/
def batch (l : List α) (size : Nat) : List (List α) :=
  if size = 0 then []
  else match l with
    | [] => []
    | c :: rest => (c :: rest).take size :: batch (rest.drop (size - 1)) size
termination_by l.length
decreasing_by
  simp_all
  omega

/-- Model of Python `str.splitlines()` for `\n`-separated text (the only
line terminator the library's own data uses): maximal `\n`-free
segments; a trailing newline does not produce a final empty line, and an
empty string yields no lines. -/
def pySplitlines (s : List Char) : List (List Char) :=
  match s with
  | [] => []
  | c :: rest =>
      if c == '\n' then [] :: pySplitlines rest
      else match pySplitlines rest with
        | [] => [[c]]
        | l :: ls => (c :: l) :: ls

/-! ## DOI recognizer (`libbmc/doi.py`)

The DOI pattern is
`re.compile(r"\b(10[.][0-9]{4,}(?:[.][0-9]+)*/(?:(?![\"&\'])\S)+)\b", re.IGNORECASE)`.
The pattern is letter-free except through `\S`, which is closed under
case, so the `IGNORECASE` flag is inert.  Matching this pattern is
deterministic up to the final `(?:...)+\b` interaction: the digit groups
are maximal runs (shrinking any of them puts a digit in front of a
pattern element that only accepts `.` or `/`), and the trailing `\b`
makes the engine backtrack the greedy `\S`-run to the rightmost position
that is a word boundary.  The functions below implement exactly this
behaviour. -/

/-- Character class `(?:(?![\"&\'])\S)` of the DOI suffix: non-whitespace
and none of `"`, `&`, `'`. -/
def isDoiBodyChar (c : Char) : Bool :=
  !isPySpace c && c != '"' && c != '&' && c != '\''

/-- Word-character test on an optional character; `none` (start/end of
string) counts as a non-word position, as in Python's `\b`. -/
def isWordOpt : Option Char → Bool
  | none => false
  | some c => isPyWord c

/-- Rightmost word-boundary inside a run: `lastBoundary t next = some p`
iff `p` is the greatest `1 ≤ p ≤ t.length` such that there is a word
boundary between `t[p-1]` and the character following it (`t[p]`, or
`next` past the end of `t`).  This is where the backtracking of a greedy
run followed by `\b` ends up.  `nextChar rest next` is the character
following the current one (`next` stands past the end of the run). -/
def nextChar (rest : List Char) (next : Option Char) : Option Char :=
  match rest with
  | [] => next
  | d' :: _ => some d'

def lastBoundary : List Char → Option Char → Option Nat
  | [], _ => none
  | c :: rest, next =>
    match lastBoundary rest next with
    | some p => some (p + 1)
    | none =>
      if isWordOpt (some c) != isWordOpt (nextChar rest next) then some 1
      else none

/-- Length consumed by the greedy `(?:[.][0-9]+)*` of the DOI pattern:
repeatedly a literal `.` followed by a maximal non-empty digit run. -/
def parseDotRuns : List Char → Nat
  | '.' :: c :: rest =>
    if c.isDigit then
      let ds := (c :: rest).takeWhile Char.isDigit
      ds.length + 1 + parseDotRuns ((c :: rest).drop ds.length)
    else 0
  | _ => 0
termination_by l => l.length
decreasing_by
  simp only [List.length_drop, List.length_cons]
  omega

/-- Model of `re.match` of the DOI pattern against `s`: the length of the matched
prefix (`match.group(0)`), or `none`.  The leading `\b` holds
automatically because a match starts with the word character `1` at the
start of the string. -/
def pymatchDOI (s : List Char) : Option Nat :=
  match s with
  | '1' :: '0' :: '.' :: rest =>
    let ds := rest.takeWhile Char.isDigit
    if ds.length < 4 then none
    else
      let rest2 := rest.drop ds.length
      let k := parseDotRuns rest2
      match rest2.drop k with
      | '/' :: body =>
        let t := body.takeWhile isDoiBodyChar
        match lastBoundary t (body.drop t.length).head? with
        | some p => some (3 + ds.length + k + 1 + p)
        | none => none
      | _ => none
  | _ => none

/-- Model of `libbmc.doi.is_valid`:
`match = REGEX.match(doi); return (match is not None) and (match.group(0) == doi)`.
Since `group(0)` is the matched prefix of the input, the comparison is a
length comparison. -/
def doi_is_valid (s : List Char) : Bool :=
  match pymatchDOI s with
  | some n => n == s.length
  | none => false

/-- Model of `REGEX.findall` for the DOI pattern: scan positions left to right;
at a position whose preceding character is not a word character (the
leading `\b`), attempt a match; on success record the matched text and
continue after it, otherwise advance one character.  `pymatchDOI` never
returns a length below 9, so `rest.drop (n - 1)` is the continuation
after the match. -/
def doiFindallGo : Option Char → List Char → List (List Char)
  | _, [] => []
  | prev, c :: rest =>
    if !isWordOpt prev then
      match pymatchDOI (c :: rest) with
      | some n => (c :: rest).take n ::
          doiFindallGo ((c :: rest).take n).getLast? (rest.drop (n - 1))
      | none => doiFindallGo (some c) rest
    else doiFindallGo (some c) rest
termination_by _ l => l.length
decreasing_by
  all_goals simp only [List.length_cons, List.length_drop]
  all_goals omega

/-- Model of `libbmc.doi.extract_from_text`:
`return tools.remove_duplicates(REGEX.findall(text))`.  With a single
group enclosing the whole pattern (minus the zero-width `\b`s),
`findall` returns the matched texts. -/
def doi_extract_from_text (text : List Char) : List (List Char) :=
  remove_duplicates (doiFindallGo none text)

/-- Specification-side reading of the claim "the entire candidate string
matches the DOI pattern": an anchored full match of
`\b10[.][0-9]{4,}(?:[.][0-9]+)*/(?:(?![\"&\'])\S)+\b`.  The leading `\b`
is automatic (the first character `1` is a word character at the start
of the string); the trailing `\b` at end of string requires the last
character to be a word character. -/
def IsDotRun (p : List Char) : Prop :=
  ∃ e, p = '.' :: e ∧ e ≠ [] ∧ ∀ c ∈ e, c.isDigit

def FullDOI (s : List Char) : Prop :=
  ∃ (ds : List Char) (parts : List (List Char)) (body : List Char),
    s = '1' :: '0' :: '.' :: (ds ++ parts.flatten ++ '/' :: body) ∧
    4 ≤ ds.length ∧ (∀ c ∈ ds, c.isDigit) ∧
    (∀ p ∈ parts, IsDotRun p) ∧
    body ≠ [] ∧ (∀ c ∈ body, isDoiBodyChar c) ∧
    isWordOpt body.getLast? = true

/-! ## arXiv recognizer (`libbmc/repositories/arxiv.py`)

The arXiv pattern is
`re.compile("((arxiv:)?((" + ARXIV_IDENTIFIER_FROM_2007 + ")|(" + ARXIV_IDENTIFIER_BEFORE_2007 + ")))", re.IGNORECASE)`
with `ARXIV_IDENTIFIER_FROM_2007 = r"\d{4}\.\d{4,5}(v\d+)?"` and
`ARXIV_IDENTIFIER_BEFORE_2007` an alternation of the category names
below followed by `/\d+`.  The category names are pasted into the
pattern WITHOUT escaping, so the `.` inside a name is the regex
any-character metacharacter: it matches every character except `\n`
(no `re.DOTALL`); every other character of a name matches
case-insensitively.  Matching is deterministic: the two alternatives
are distinguished by the first character (digit versus letter, no
category starts with its `.`), the `(arxiv:)?` option either consumes
its literal or nothing, and the quantifiers are greedy over digit runs
with nothing after them that can fail once `\d{4,5}` has at least four
digits.  Each category alternative consumes exactly the name's length,
and the alternation is tried left to right, exactly as the engine
does. -/

/-- Case-insensitive literal match (`re.IGNORECASE`): consume the
literal `lit` (compared through `Char.toLower` on both sides) from the
front of `s`, returning the remainder. -/
def dropLitI : List Char → List Char → Option (List Char)
  | [], s => some s
  | _ :: _, [] => none
  | c :: cs, d :: ds => if c.toLower == d.toLower then dropLitI cs ds else none

/-- Case-sensitive literal match: consume `lit` from the front of `s`. -/
def dropLit : List Char → List Char → Option (List Char)
  | [], s => some s
  | _ :: _, [] => none
  | c :: cs, d :: ds => if c == d then dropLit cs ds else none

/-- The literal `arxiv:` of the optional prefix group `(arxiv:)?`. -/
def arxivLit : List Char := 'a' :: 'r' :: 'x' :: 'i' :: 'v' :: ':' :: []

/-- The category literals of `ARXIV_IDENTIFIER_BEFORE_2007`, in source
order (the order of the alternation). -/
def arxivCategories : List (List Char) :=
  [ "astro-ph.GA", "astro-ph.CO", "astro-ph.EP", "astro-ph.HE",
    "astro-ph.IM", "astro-ph.SR", "cond-math.dis-nn", "cond-math.mtrl-sci",
    "cond-math.mes-hall", "cond-math.other", "cond-math.quant-gas",
    "cond-math.soft", "cond-math.stat-mech", "cond-math.str-el",
    "cond-math.supr-con", "gr-qc", "hep-ex", "hep-lat", "hep-ph", "hep-th",
    "math-ph", "nlin.AO", "nlin.CG", "nlin.CD", "nlin.SI", "nlin.PS",
    "nucl-ex", "nucl-th", "physics.acc-ph", "physics.ao-ph",
    "physics.atom-ph", "physics.atm-clus", "physics.bio-ph",
    "physics.chem-ph", "physics.class-ph", "physics.comp-ph",
    "physics.data-an", "physics.flu-dyn", "physics.gen-ph",
    "physics.geo-ph", "physics.hist-ph", "physics.ins-det",
    "physics.med-ph", "physics.optics", "physics.ed-ph", "physics.soc-ph",
    "physics.plasm-ph", "physics.pop-ph", "physics.space-ph",
    "physics.quant-ph", "math.AG", "math.AT", "math.AP", "math.CT",
    "math.CA", "math.CO", "math.AC", "math.CV", "math.DG", "math.DS",
    "math.FA", "math.GM", "math.GN", "math.GT", "math.GR", "math.HO",
    "math.IT", "math.KT", "math.LO", "math.MP", "math.MG", "math.NT",
    "math.NA", "math.OA", "math.OC", "math.PR", "math.QA", "math.RT",
    "math.RA", "math.SP", "math.ST", "math.SG", "cs.AI", "cs.CL", "cs.CC",
    "cs.CE", "cs.CG", "cs.GT", "cs.CV", "cs.CY", "cs.CR", "cs.DS",
    "cs.DB", "cs.DL", "cs.DM", "cs.DC", "cs.ET", "cs.FL", "cs.GL",
    "cs.GR", "cs.AR", "cs.HC", "cs.IR", "cs.IT", "cs.LG", "cs.LO",
    "cs.MS", "cs.MA", "cs.MM", "cs.NI", "cs.NE", "cs.NA", "cs.OS",
    "cs.OH", "cs.PF", "cs.PL", "cs.RO", "cs.SI", "cs.SE", "cs.SD",
    "cs.SC", "cs.SY", "q-bio.BM", "q-bio.CB", "q-bio.GN", "q-bio.MN",
    "q-bio.NC", "q-bio.OT", "q-bio.PE", "q-bio.QM", "q-bio.SC",
    "q-bio.TO", "q-fin.CP", "q-fin.EC", "q-fin.GN", "q-fin.MF",
    "q-fin.PM", "q-fin.PR", "q-fin.RM", "q-fin.ST", "q-fin.TR",
    "stat.AP", "stat.CO", "stat.ML", "stat.ME", "stat.OT",
    "stat.TH" ].map String.data

/-- The characters that occur in the category names: letters, `-` and
the (unescaped) `.`. -/
def isCatChar (c : Char) : Bool :=
  c == '.' || c.isAlpha || c == '-'

/-- One compiled-pattern character of a category name against one input
character: the unescaped `.` is the regex any-character (everything but
`\n`), any other character matches case-insensitively
(`re.IGNORECASE`). -/
def matchOneI (c d : Char) : Bool :=
  if c == '.' then d != '\n' else c.toLower == d.toLower

/-- Consume one compiled category name `pat` from the front of `s`
(each character via `matchOneI`), returning the remainder. -/
def dropPatI : List Char → List Char → Option (List Char)
  | [], s => some s
  | _ :: _, [] => none
  | c :: cs, d :: ds => if matchOneI c d then dropPatI cs ds else none

/-- `w` matches the compiled category name `pat` in full (same length,
`matchOneI` at every position). -/
def matchesCatI : List Char → List Char → Bool
  | [], [] => true
  | c :: cs, d :: ds => matchOneI c d && matchesCatI cs ds
  | _, _ => false

/-- Length consumed by the greedy optional `(v\d+)?` (case-insensitive,
so `V` is also accepted): a `v` followed by a maximal non-empty digit
run, or nothing. -/
def arxivVOpt (s : List Char) : Nat :=
  match s with
  | v :: rest =>
    if v == 'v' || v == 'V' then
      let run := rest.takeWhile Char.isDigit
      if run.length == 0 then 0 else 1 + run.length
    else 0
  | [] => 0

/-- Model of `re.match` of `ARXIV_IDENTIFIER_FROM_2007` (`\d{4}\.\d{4,5}(v\d+)?`):
four digits, a dot, then greedily five digits if available else four,
then the optional version suffix. -/
def arxivFrom2007 (s : List Char) : Option Nat :=
  match s with
  | a :: b :: c :: d :: '.' :: rest =>
    if a.isDigit && b.isDigit && c.isDigit && d.isDigit then
      let run := rest.takeWhile Char.isDigit
      if run.length < 4 then none
      else
        let t := min run.length 5
        some (5 + t + arxivVOpt (rest.drop t))
    else none
  | _ => none

/-- Model of `re.match` of `ARXIV_IDENTIFIER_BEFORE_2007`: try each compiled
category name in alternation order (`dropPatI`, with the unescaped `.`
matching any character but `\n`); on a name match require `/` and a
non-empty greedy digit run, otherwise backtrack to the next
alternative. -/
def arxivTryCats : List (List Char) → List Char → Option Nat
  | [], _ => none
  | cat :: cats, s =>
    match dropPatI cat s with
    | some rest =>
      match rest with
      | '/' :: r2 =>
        let run := r2.takeWhile Char.isDigit
        if run.length == 0 then arxivTryCats cats s
        else some (cat.length + 1 + run.length)
      | _ => arxivTryCats cats s
    | none => arxivTryCats cats s

/-- The alternation `(from2007)|(before2007)`, left alternative first. -/
def arxivCore (s : List Char) : Option Nat :=
  match arxivFrom2007 s with
  | some n => some n
  | none => arxivTryCats arxivCategories s

/-- Model of `re.match` of the full arXiv pattern: greedy `(arxiv:)?` first (with
backtracking to the empty alternative if the rest fails), then the
core alternation. -/
def pymatchArxiv (s : List Char) : Option Nat :=
  match dropLitI arxivLit s with
  | some rest =>
    match arxivCore rest with
    | some n => some (6 + n)
    | none => arxivCore s
  | none => arxivCore s

/-- Model of `libbmc.repositories.arxiv.is_valid`:
`match = REGEX.match(arxiv_id); return (match is not None) and (match.group(0) == arxiv_id)`. -/
def arxiv_is_valid (s : List Char) : Bool :=
  match pymatchArxiv s with
  | some n => n == s.length
  | none => false

/-- Model of `REGEX.findall` for the arXiv pattern (no `\b`, so every position is
tried); `i[0]` of each returned tuple is the outermost group, i.e. the
whole matched text.  `pymatchArxiv` never returns a length below 7, so
`rest.drop (n - 1)` is the continuation after the match. -/
def arxivFindallGo : List Char → List (List Char)
  | [] => []
  | c :: rest =>
    match pymatchArxiv (c :: rest) with
    | some n => (c :: rest).take n :: arxivFindallGo (rest.drop (n - 1))
    | none => arxivFindallGo rest
termination_by l => l.length
decreasing_by
  all_goals simp only [List.length_cons, List.length_drop]
  all_goals omega

/-- Model of `re.sub("arxiv:", "", i, flags=re.IGNORECASE)`: remove every
case-insensitive occurrence of `arxiv:`, the scan resuming after each
removal. -/
def arxivSub : List Char → List Char
  | [] => []
  | c :: rest =>
    if (dropLitI arxivLit (c :: rest)).isSome then arxivSub (rest.drop 5)
    else c :: arxivSub rest
termination_by l => l.length
decreasing_by
  all_goals simp only [List.length_cons, List.length_drop]
  all_goals omega

/-- Model of `libbmc.repositories.arxiv.extract_from_text`:
`tools.remove_duplicates([re.sub("arxiv:", "", i[0], flags=re.IGNORECASE) for i in REGEX.findall(text) if i[0] != ''])`.
(The filter is kept although a match is never empty.) -/
def arxiv_extract_from_text (text : List Char) : List (List Char) :=
  remove_duplicates (((arxivFindallGo text).filter (fun m => !m.isEmpty)).map arxivSub)

/-- Specification-side anchored full match of
`ARXIV_IDENTIFIER_FROM_2007 = \d{4}\.\d{4,5}(v\d+)?` (case-insensitive). -/
def FullFrom2007 (s : List Char) : Prop :=
  ∃ (a b v : List Char),
    s = a ++ '.' :: (b ++ v) ∧
    a.length = 4 ∧ (∀ c ∈ a, c.isDigit) ∧
    (b.length = 4 ∨ b.length = 5) ∧ (∀ c ∈ b, c.isDigit) ∧
    (v = [] ∨ ∃ (c : Char) (ds : List Char), v = c :: ds ∧
      (c = 'v' ∨ c = 'V') ∧ ds ≠ [] ∧ ∀ c2 ∈ ds, c2.isDigit)

/-- Specification-side anchored full match of
`ARXIV_IDENTIFIER_BEFORE_2007`: a compiled category name — each of its
characters case-insensitively, except the unescaped `.` which matches
any character but `\n` — then a slash and a non-empty digit run. -/
def FullBefore2007 (s : List Char) : Prop :=
  ∃ (cat pre ds : List Char),
    cat ∈ arxivCategories ∧ s = pre ++ '/' :: ds ∧
    matchesCatI cat pre = true ∧
    ds ≠ [] ∧ ∀ c ∈ ds, c.isDigit

/-- Specification-side anchored full match of the whole arXiv pattern:
an optional case-insensitive `arxiv:` prefix followed by either
identifier form. -/
def FullArxiv (s : List Char) : Prop :=
  ∃ (pre core : List Char),
    s = pre ++ core ∧
    (pre = [] ∨ pre.map Char.toLower = arxivLit.map Char.toLower) ∧
    (FullFrom2007 core ∨ FullBefore2007 core)

/-! ## HAL recognizer (`libbmc/repositories/hal.py`)

The HAL pattern is `re.compile(r"((hal-\d{8})((, version (\d+))|v(\d+))?)")`
(no flags).  Matching is deterministic: the two suffix alternatives are
distinguished by their first character (`,` versus `v`) and the digit
runs are greedy with nothing after them. -/

/-- The literal `, version ` of the first suffix alternative. -/
def halVerLit : List Char :=
  ',' :: ' ' :: 'v' :: 'e' :: 'r' :: 's' :: 'i' :: 'o' :: 'n' :: ' ' :: []

/-- The `v(\d+)` alternative of the HAL suffix. -/
def halSuffixV (s : List Char) : Nat :=
  match s with
  | 'v' :: r2 =>
    let run := r2.takeWhile Char.isDigit
    if run.length == 0 then 0 else 1 + run.length
  | _ => 0

/-- Length consumed by the greedy optional suffix
`((, version (\d+))|v(\d+))?`, alternatives in source order. -/
def halSuffix (s : List Char) : Nat :=
  match dropLit halVerLit s with
  | some r2 =>
    let run := r2.takeWhile Char.isDigit
    if run.length == 0 then halSuffixV s else 10 + run.length
  | none => halSuffixV s

/-- Model of `re.match` of the HAL pattern: the literal `hal-`, exactly eight
digits, then the optional version suffix. -/
def pymatchHAL (s : List Char) : Option Nat :=
  match s with
  | 'h' :: 'a' :: 'l' :: '-' :: rest =>
    let ds := rest.take 8
    if ds.length == 8 && ds.all Char.isDigit then
      some (12 + halSuffix (rest.drop 8))
    else none
  | _ => none

/-- Model of `libbmc.repositories.hal.is_valid`:
`match = REGEX.match(hal_id); return (match is not None) and (match.group(0) == hal_id)`. -/
def hal_is_valid (s : List Char) : Bool :=
  match pymatchHAL s with
  | some n => n == s.length
  | none => false

/-- Specification-side anchored full match of the HAL pattern
`(hal-\d{8})((, version (\d+))|v(\d+))?`. -/
def FullHAL (s : List Char) : Prop :=
  ∃ (ds suf : List Char),
    s = 'h' :: 'a' :: 'l' :: '-' :: (ds ++ suf) ∧
    ds.length = 8 ∧ (∀ c ∈ ds, c.isDigit) ∧
    (suf = [] ∨
      (∃ n, suf = halVerLit ++ n ∧ n ≠ [] ∧ ∀ c ∈ n, c.isDigit) ∨
      (∃ n, suf = 'v' :: n ∧ n ≠ [] ∧ ∀ c ∈ n, c.isDigit))

/-! ## ISBN recognizer (`libbmc/isbn.py`)

`is_valid` and `extract_from_text` delegate to the third-party `isbnlib`
package.  Its relevant functions are modelled here:
`isbnlib.canonical` keeps only the characters `0-9Xx` and uppercases a
trailing `x`; `isbnlib.notisbn` (strict level) accepts exactly the
strings whose canonical form passes the standard ISBN-10 or ISBN-13
checksum; `isbnlib.get_canonical_isbn` (default output) returns the
canonical form of a valid ISBN and `None` otherwise.
`isbnlib.get_isbnlike` (the candidate scanner) and `isbnlib.mask` (the
hyphenator, driven by an external range database) are taken as arbitrary
function parameters: every property proved below holds for every
behaviour of these two. -/

/-- Characters kept by `isbnlib.canonical`. -/
def isbnKeepChar (c : Char) : Bool :=
  c.isDigit || c == 'X' || c == 'x'

/-- Uppercase a trailing `x` (as `isbnlib.canonical` does). -/
def isbnUpperLast (l : List Char) : List Char :=
  match l.getLast? with
  | some c => if c == 'x' then l.dropLast ++ ['X'] else l
  | none => l

/-- Model of `isbnlib.canonical`. -/
def isbn_canonical (s : List Char) : List Char :=
  isbnUpperLast (s.filter isbnKeepChar)

/-- Digit values of an ISBN-10 candidate: all digits, except that the
last character may be `X` (value 10).  `none` if any other character
occurs. -/
def isbn10Vals : List Char → Option (List Nat)
  | [] => some []
  | [c] =>
    if c.isDigit then some [c.toNat - 48]
    else if c == 'X' then some [10] else none
  | c :: rest =>
    if c.isDigit then (isbn10Vals rest).map (fun vs => (c.toNat - 48) :: vs)
    else none

/-- Weighted sum with decreasing weights `w, w-1, ...`. -/
def isbnWeightedSum : List Nat → Nat → Nat
  | [], _ => 0
  | v :: vs, w => v * w + isbnWeightedSum vs (w - 1)

/-- Model of `isbnlib`'s ISBN-10 test: ten characters, digits with an
optional final `X`, and the standard mod-11 checksum. -/
def is_isbn10 (s : List Char) : Bool :=
  s.length == 10 &&
    (match isbn10Vals s with
     | some vs => isbnWeightedSum vs 10 % 11 == 0
     | none => false)

/-- Alternating 1,3 weighted sum of ISBN-13 digit values. -/
def isbn13AltSum : List Char → Bool → Nat
  | [], _ => 0
  | c :: rest, w1 =>
    (c.toNat - 48) * (if w1 then 1 else 3) + isbn13AltSum rest (!w1)

/-- Model of `isbnlib`'s ISBN-13 test: thirteen digits starting with
`978` or `979` and the standard mod-10 checksum. -/
def is_isbn13 (s : List Char) : Bool :=
  s.length == 13 && s.all Char.isDigit &&
    (match s with
     | '9' :: '7' :: '8' :: _ => true
     | '9' :: '7' :: '9' :: _ => true
     | _ => false) &&
    isbn13AltSum s true % 10 == 0

/-- Model of `isbnlib.notisbn(isbn_id)` at its default strict level. -/
def notisbn (s : List Char) : Bool :=
  !(is_isbn10 (isbn_canonical s) || is_isbn13 (isbn_canonical s))

/-- Model of `isbnlib.get_canonical_isbn(isbn_id)` with the default
output format (the canonical form keeps its length). -/
def get_canonical_isbn (s : List Char) : Option (List Char) :=
  if notisbn s then none else some (isbn_canonical s)

/-- Model of `libbmc.isbn.is_valid`:
`(not isbnlib.notisbn(isbn_id)) and (isbnlib.get_canonical_isbn(isbn_id) == isbn_id or isbnlib.mask(isbnlib.get_canonical_isbn(isbn_id)) == isbn_id)`.
`mask` is an arbitrary parameter. -/
def isbn_is_valid (mask : Option (List Char) → List Char) (s : List Char) : Bool :=
  !notisbn s &&
    (get_canonical_isbn s == some s || mask (get_canonical_isbn s) == s)

/-- Model of `libbmc.isbn.extract_from_text`:
`isbns = [isbnlib.get_canonical_isbn(isbn) for isbn in isbnlib.get_isbnlike(text)]; return [i for i in isbns if i is not None]`.
`isbnlike` (the model of `isbnlib.get_isbnlike`) is an arbitrary
parameter. -/
def isbn_extract_from_text (isbnlike : List Char → List (List Char))
    (text : List Char) : List (List Char) :=
  (((isbnlike text).map get_canonical_isbn).filter Option.isSome).reduceOption

/-! ## Batch resolver (`libbmc/citations/plaintext.py`, `libbmc/citations/bbl.py`)

`plaintext.get_cited_DOIs` and `bbl.get_cited_DOIs` contain the same
resolution loop verbatim; it is modelled once
(`get_cited_DOIs_of_citations`).  Python runtime errors raised by the
code are modelled with `Except`:

* `matched_DOIs`/`matched_arXiv` are lists returned by
  `extract_from_text`, never `None`, so the guards
  `if matched_DOIs is not None:` always take the `True` branch
  (`pyIsNotNone`); `matched_DOIs[0]` on the empty list then raises
  `IndexError`;
* `tools.remove_URLs` (plaintext.py line 80, bbl.py line 107) does not
  exist — `libbmc/tools.py` defines `remove_urls` — so the attribute
  lookup raises `AttributeError`;
* `arxiv.to_DOI` (plaintext.py line 75, bbl.py line 102) does not exist
  — `libbmc/repositories/arxiv.py` defines `to_doi` — so the attribute
  lookup raises `AttributeError`;
* in `plaintext.get_cited_DOIs(file)` the variable `plaintext_citations`
  is assigned only under `if not isinstance(file, list):`, so calling it
  with a list raises `UnboundLocalError` (a `NameError`) at the loop
  header.

The POST to the CrossRef links API and the parsing of its JSON response
are modelled by an oracle `CrossrefOracle`: `none` models a request that
fails outright (`RequestException`, `ValueError` or `KeyError` caught by
the chunk handler), `some results` models a parsed `"results"` list of
`text`/optional-`doi` pairs. -/

inductive PyExc
  | indexError
  | nameError
  | attributeError
  | importError
deriving DecidableEq

/-- Model of loading `libbmc.citations.plaintext` (line 8) or
`libbmc.citations.bbl` (line 9): `from requests.exception import
RequestException`.  The `requests` package defines `requests.exceptions`
(plural) — the other modules of this repository import it correctly —
so this import raises `ImportError` and neither citations module ever
loads. -/
def citations_module_import : Except PyExc Unit :=
  .error .importError

abbrev PyStr := List Char

/-- Python dict (insertion ordered) from raw citation text to optional
DOI. -/
abbrev DoiMap := List (PyStr × Option PyStr)

/-- Python dict assignment `m[k] = v`: update in place if the key
exists, else append. -/
def dictSet (m : DoiMap) (k : PyStr) (v : Option PyStr) : DoiMap :=
  if m.any (fun kv => kv.1 == k) then
    m.map (fun kv => if kv.1 == k then (k, v) else kv)
  else m ++ [(k, v)]

/-- Python's `x is not None` where `x` is the list returned by
`extract_from_text`: a list is never `None`, so this is constantly
`true`. -/
def pyIsNotNone (_l : List α) : Bool := true

/-- Attribute `tools.remove_URLs` as called by the resolver: `libbmc/tools.py`
defines `remove_urls` (lower case), so the attribute lookup raises
`AttributeError`. -/
def tools_remove_URLs (_s : PyStr) : Except PyExc PyStr :=
  .error .attributeError

/-- Attribute `arxiv.to_DOI` as called by the resolver:
`libbmc/repositories/arxiv.py` defines `to_doi` (lower case), so the
attribute lookup raises `AttributeError`. -/
def arxiv_to_DOI (_s : PyStr) : Except PyExc (Option PyStr) :=
  .error .attributeError

/-- The direct pass of `get_cited_DOIs` (plaintext.py lines 63-80,
bbl.py lines 90-107): for each citation, `doi.extract_from_text`, the
always-true `is not None` guard, `matched_DOIs[0]` (IndexError on no
match); the arXiv branch and the queueing of
`tools.remove_URLs(citation)` are kept although they are unreachable.
Returns the accumulated dict and the residual CrossRef queue. -/
def direct_pass : List PyStr → DoiMap → List PyStr →
    Except PyExc (DoiMap × List PyStr)
  | [], dois, queue => .ok (dois, queue)
  | c :: cs, dois, queue =>
    let matched := doi_extract_from_text c
    if pyIsNotNone matched then
      match matched with
      | [] => .error .indexError
      | d :: _ => direct_pass cs (dictSet dois c (some d)) queue
    else
      let matchedA := arxiv_extract_from_text c
      if pyIsNotNone matchedA then
        match matchedA with
        | [] => .error .indexError
        | a :: _ =>
          match arxiv_to_DOI a with
          | .error e => .error e
          | .ok v => direct_pass cs (dictSet dois c v) queue
      else
        match tools_remove_URLs c with
        | .error e => .error e
        | .ok c2 => direct_pass cs dois (queue ++ [c2])

/-- Outcome of one CrossRef links request on a chunk: `none` for a
request that fails outright, `some results` for a parsed response
(`text` and optional `doi` per result; a missing `"doi"` key is the
`KeyError` branch storing `None`). -/
abbrev CrossrefOracle := List PyStr → Option (List (PyStr × Option PyStr))

/-- The chunk-submission loop (plaintext.py lines 82-98, bbl.py lines
108-124): per chunk, on a parsed response store each result's `doi`
(or `None`), on a failed request store `None` for every queued citation
of the chunk. -/
def merge_batches (oracle : CrossrefOracle) :
    List (List PyStr) → DoiMap → DoiMap
  | [], dois => dois
  | b :: bs, dois =>
    match oracle b with
    | some results =>
        merge_batches oracle bs (results.foldl (fun m r => dictSet m r.1 r.2) dois)
    | none =>
        merge_batches oracle bs (b.foldl (fun m i => dictSet m i none) dois)

def CROSSREF_MAX_BATCH_SIZE : Nat := 10

/-- The shared body of `get_cited_DOIs` on an already-computed citation
list: direct pass, then chunked submission of the residual queue. -/
def get_cited_DOIs_of_citations (oracle : CrossrefOracle) (cits : List PyStr) :
    Except PyExc DoiMap :=
  match direct_pass cits [] [] with
  | .error e => .error e
  | .ok (dois, queue) =>
      .ok (merge_batches oracle (batch queue CROSSREF_MAX_BATCH_SIZE) dois)

/-- Model of `libbmc.citations.plaintext.get_plaintext_citations` on file
content: one `clean_whitespaces` per line of the input. -/
def plaintext_get_plaintext_citations (content : PyStr) : List PyStr :=
  (pySplitlines content).map clean_whitespaces

/-- Model of `libbmc.citations.plaintext.get_cited_DOIs` called with file
content (a string). -/
def plaintext_get_cited_DOIs_content (oracle : CrossrefOracle)
    (content : PyStr) : Except PyExc DoiMap :=
  get_cited_DOIs_of_citations oracle (plaintext_get_plaintext_citations content)

/-- Model of `libbmc.citations.plaintext.get_cited_DOIs` called with a list of
pre-parsed citations: the only assignment to `plaintext_citations` is
guarded by `if not isinstance(file, list):`, so the loop header
`for citation in plaintext_citations[:]:` raises `UnboundLocalError`
(a subclass of `NameError`) before anything else happens. -/
def plaintext_get_cited_DOIs_list (_oracle : CrossrefOracle)
    (_cits : List PyStr) : Except PyExc DoiMap :=
  .error .nameError

/-! ## bbl adapter (`libbmc/citations/bbl.py`)

`BIBITEMS_REGEX = re.compile(r"\\bibitem\{.+?\}")` and
`ENDTHEBIBLIOGRAPHY_REGEX = re.compile(r"\\end\{thebibliography}.*")`
(no `re.DOTALL`, so `.` excludes newlines).  `re.split` scans for
non-overlapping leftmost matches; the lazy `.+?` takes the shortest
non-empty newline-free run followed by `}`. -/

/-- The opening literal `\bibitem{` of a bibitem marker (9 characters). -/
def bibitemOpenLit : List Char :=
  '\\' :: 'b' :: 'i' :: 'b' :: 'i' :: 't' :: 'e' :: 'm' :: '\x7b' :: []

/-- Position of the closing `}` for the lazy `.+?\}`: the index of the
first `}` in `l`, provided no newline precedes it. -/
def bibitemCloseAt : List Char → Option Nat
  | [] => none
  | c :: tail =>
    if c == '\x7d' then some 0
    else if c == '\n' then none
    else (bibitemCloseAt tail).map (· + 1)

/-- Length of a `BIBITEMS_REGEX` match starting at the head of `s`, if
any: `\bibitem{`, at least one newline-free character, then the first
`}`. -/
def bibitemMatchLen (s : List Char) : Option Nat :=
  match dropLit bibitemOpenLit s with
  | some rest =>
    match rest with
    | [] => none
    | c :: tail =>
      if c == '\n' then none
      else (bibitemCloseAt tail).map (fun j => 11 + j)
  | none => none

/-- Model of `re.split(BIBITEMS_REGEX, s)`: segments between non-overlapping
leftmost matches (the accumulator holds the current segment, reversed).
A match is at least 11 characters long, so `rest.drop (n - 1)` is the
continuation after the match. -/
def bblSplitGo : List Char → List Char → List (List Char)
  | [], seg => [seg.reverse]
  | c :: rest, seg =>
    match bibitemMatchLen (c :: rest) with
    | some n => seg.reverse :: bblSplitGo (rest.drop (n - 1)) []
    | none => bblSplitGo rest (c :: seg)
termination_by l _ => l.length
decreasing_by
  all_goals simp only [List.length_cons, List.length_drop]
  all_goals omega

/-- Number of non-overlapping leftmost `BIBITEMS_REGEX` matches in `s`
(the number of citation-item markers). -/
def bibitemCount : List Char → Nat
  | [] => 0
  | c :: rest =>
    match bibitemMatchLen (c :: rest) with
    | some n => 1 + bibitemCount (rest.drop (n - 1))
    | none => bibitemCount rest
termination_by l => l.length
decreasing_by
  all_goals simp only [List.length_cons, List.length_drop]
  all_goals omega

/-- The literal `\end{thebibliography}` (21 characters). -/
def endbibLit : List Char :=
  '\\' :: 'e' :: 'n' :: 'd' :: '\x7b' :: 't' :: 'h' :: 'e' :: 'b' :: 'i' ::
  'b' :: 'l' :: 'i' :: 'o' :: 'g' :: 'r' :: 'a' :: 'p' :: 'h' :: 'y' ::
  '\x7d' :: []

/-- Model of `ENDTHEBIBLIOGRAPHY_REGEX.sub("", i)`: remove every occurrence of
`\end{thebibliography}` together with the rest of its line (`.*`
without `re.DOTALL` stops before a newline). -/
def endbibSub : List Char → List Char
  | [] => []
  | c :: rest =>
    if (dropLit endbibLit (c :: rest)).isSome then
      endbibSub ((rest.drop 20).dropWhile (fun c2 => c2 != '\n'))
    else c :: endbibSub rest
termination_by l => l.length
decreasing_by
  all_goals simp only [List.length_cons, List.length_drop]
  · have := (List.dropWhile_sublist (l := rest.drop 20)
      (fun c2 => c2 != '\n')).length_le
    simp only [List.length_drop] at this
    omega
  · omega

/-- Python `str.strip()`: drop whitespace from both ends. -/
def pyStrip (s : List Char) : List Char :=
  ((s.dropWhile isPySpace).reverse.dropWhile isPySpace).reverse

/-- Model of `libbmc.citations.bbl.get_plaintext_citations` on file content:
split on bibitem markers, drop the preamble (`[1:]`), strip the
end-of-bibliography marker text and surrounding whitespace, then
`bibitem_as_plaintext` (the `delatex` subprocess modelled as an oracle,
followed by `clean_whitespaces`). -/
def bbl_get_plaintext_citations (delatex : PyStr → PyStr) (bbl : PyStr) :
    List PyStr :=
  let bibitems := (bblSplitGo bbl []).drop 1
  let bibitems2 := bibitems.map (fun i => pyStrip (endbibSub i))
  bibitems2.map (fun b => clean_whitespaces (delatex b))

/-- Model of `libbmc.citations.bbl.get_cited_DOIs`. -/
def bbl_get_cited_DOIs (delatex : PyStr → PyStr) (oracle : CrossrefOracle)
    (bbl : PyStr) : Except PyExc DoiMap :=
  get_cited_DOIs_of_citations oracle (bbl_get_plaintext_citations delatex bbl)

/-- Checker for the claimed whitespace normal form: no two adjacent
whitespace characters. -/
def noAdjWS : List Char → Bool
  | c1 :: c2 :: rest => !(isPySpace c1 && isPySpace c2) && noAdjWS (c2 :: rest)
  | _ => true

/-! ## Helper lemmas -/

theorem char_toNat_ofNat_valid (n : Nat) (h : n.isValidChar) :
    (Char.ofNat n).toNat = n := by
  rw [Char.ofNat, dif_pos h]
  simp [Char.ofNatAux, Char.toNat, UInt32.toNat, BitVec.toNat_ofNatLt]

/-- A character whose `toLower` image has a code point below `a` (97) is
fixed by `toLower`; in particular `toLower c = d` forces `c = d` for
such `d` (digits, `/`, `:`, `.`). -/
theorem char_toLower_eq_of_lt (c d : Char) (h : c.toLower = d)
    (hd : d.toNat < 97) : c = d := by
  unfold Char.toLower at h
  simp only at h
  by_cases hc : c.toNat ≥ 65 ∧ c.toNat ≤ 90
  · rw [if_pos hc] at h
    subst h
    rw [char_toNat_ofNat_valid] at hd
    · omega
    · exact Or.inl (by omega)
  · rwa [if_neg hc] at h

theorem char_isDigit_toNat (c : Char) (h : c.isDigit = true) :
    48 ≤ c.toNat ∧ c.toNat ≤ 57 := by
  simp only [Char.isDigit, Bool.and_eq_true, decide_eq_true_eq, ge_iff_le] at h
  obtain ⟨h1, h2⟩ := h
  rw [UInt32.le_def, BitVec.le_def] at h1 h2
  exact ⟨h1, h2⟩

/-- Digits are fixed points of `Char.toLower`. -/
theorem char_toLower_of_digit (c : Char) (h : c.isDigit = true) :
    c.toLower = c := by
  unfold Char.toLower
  simp only
  rw [if_neg]
  have := char_isDigit_toNat c h
  omega

theorem pySplitGo_mem (s : List Char) : ∀ (acc t : List Char),
    (∀ c ∈ acc, isPySpace c = false) → t ∈ pySplitGo s acc →
    t ≠ [] ∧ ∀ c ∈ t, isPySpace c = false := by
  induction s with
  | nil =>
    intro acc t hacc ht
    unfold pySplitGo at ht
    by_cases h : acc.isEmpty
    · simp [h] at ht
    · simp [h] at ht
      subst ht
      refine ⟨?_, ?_⟩
      · simp [List.isEmpty_iff] at h
        simpa using h
      · intro c hc
        exact hacc c (by simpa using hc)
  | cons c rest ih =>
    intro acc t hacc ht
    unfold pySplitGo at ht
    by_cases hws : isPySpace c
    · rw [if_pos hws] at ht
      by_cases h : acc.isEmpty
      · rw [if_pos h] at ht
        exact ih [] t (by simp) ht
      · rw [if_neg h] at ht
        rcases List.mem_cons.mp ht with ht1 | ht2
        · subst ht1
          refine ⟨?_, ?_⟩
          · simp [List.isEmpty_iff] at h
            simpa using h
          · intro c2 hc2
            exact hacc c2 (by simpa using hc2)
        · exact ih [] t (by simp) ht2
    · rw [if_neg hws] at ht
      refine ih (c :: acc) t ?_ ht
      intro c2 hc2
      rcases List.mem_cons.mp hc2 with h1 | h2
      · subst h1
        simpa using hws
      · exact hacc c2 h2

theorem pySplitGo_append (t : List Char) (h : ∀ c ∈ t, isPySpace c = false) :
    ∀ (s acc : List Char), pySplitGo (t ++ s) acc = pySplitGo s (t.reverse ++ acc) := by
  induction t with
  | nil => intro s acc; simp
  | cons c t' ih =>
    intro s acc
    have hc : isPySpace c = false := h c (List.mem_cons_self _ _)
    have ht' : ∀ c2 ∈ t', isPySpace c2 = false := fun c2 hc2 => h c2 (List.mem_cons_of_mem _ hc2)
    show pySplitGo (c :: (t' ++ s)) acc = pySplitGo s ((c :: t').reverse ++ acc)
    rw [show pySplitGo (c :: (t' ++ s)) acc = pySplitGo (t' ++ s) (c :: acc) from by
      simp only [pySplitGo]
      rw [if_neg (by simp [hc])]]
    rw [ih ht' s (c :: acc)]
    congr 1
    simp

theorem pySplit_joinSpace (ts : List (List Char))
    (h : ∀ t ∈ ts, t ≠ [] ∧ ∀ c ∈ t, isPySpace c = false) :
    pySplit (joinSpace ts) = ts := by
  induction ts with
  | nil => rfl
  | cons t rest ih =>
    obtain ⟨htne, htws⟩ := h t (List.mem_cons_self _ _)
    have hrest : ∀ t2 ∈ rest, t2 ≠ [] ∧ ∀ c ∈ t2, isPySpace c = false :=
      fun t2 h2 => h t2 (List.mem_cons_of_mem _ h2)
    cases rest with
    | nil =>
      show pySplit (joinSpace [t]) = [t]
      unfold pySplit
      have : joinSpace [t] = t := rfl
      rw [this]
      have := pySplitGo_append t htws [] []
      simp at this
      rw [this]
      unfold pySplitGo
      rw [if_neg (by simp [List.isEmpty_iff, htne])]
      simp
    | cons t2 rest2 =>
      show pySplit (t ++ ' ' :: joinSpace (t2 :: rest2)) = t :: t2 :: rest2
      unfold pySplit
      rw [pySplitGo_append t htws (' ' :: joinSpace (t2 :: rest2)) []]
      unfold pySplitGo
      rw [if_pos (by norm_num [isPySpace])]
      rw [if_neg (by simp [List.isEmpty_iff, htne])]
      simp only [List.append_nil, List.reverse_reverse]
      have hih := ih hrest
      unfold pySplit at hih
      rw [hih]

theorem joinSpace_ne_nil (t : List Char) (ts : List (List Char)) (h : t ≠ []) :
    joinSpace (t :: ts) ≠ [] := by
  cases ts with
  | nil => simpa [joinSpace] using h
  | cons t2 rest => simp [joinSpace, h]

theorem joinSpace_head_not_ws (ts : List (List Char))
    (h : ∀ t ∈ ts, t ≠ [] ∧ ∀ c ∈ t, isPySpace c = false) :
    ∀ c, (joinSpace ts).head? = some c → isPySpace c = false := by
  cases ts with
  | nil => intro c hc; simp [joinSpace] at hc
  | cons t rest =>
    obtain ⟨htne, htws⟩ := h t (List.mem_cons_self _ _)
    intro c hc
    have hhead : (joinSpace (t :: rest)).head? = t.head? := by
      cases rest with
      | nil => rfl
      | cons t2 rest2 =>
        show (t ++ ' ' :: joinSpace (t2 :: rest2)).head? = t.head?
        cases t with
        | nil => exact absurd rfl htne
        | cons a t' => rfl
    rw [hhead] at hc
    exact htws c (List.mem_of_mem_head? hc)

theorem joinSpace_getLast_not_ws (ts : List (List Char))
    (h : ∀ t ∈ ts, t ≠ [] ∧ ∀ c ∈ t, isPySpace c = false) :
    ∀ c, (joinSpace ts).getLast? = some c → isPySpace c = false := by
  induction ts with
  | nil => intro c hc; simp [joinSpace] at hc
  | cons t rest ih =>
    obtain ⟨htne, htws⟩ := h t (List.mem_cons_self _ _)
    have hrest : ∀ t2 ∈ rest, t2 ≠ [] ∧ ∀ c ∈ t2, isPySpace c = false :=
      fun t2 h2 => h t2 (List.mem_cons_of_mem _ h2)
    intro c hc
    cases rest with
    | nil =>
      have : (joinSpace [t]).getLast? = t.getLast? := rfl
      rw [this] at hc
      exact htws c (List.mem_of_mem_getLast? hc)
    | cons t2 rest2 =>
      have hne : joinSpace (t2 :: rest2) ≠ [] :=
        joinSpace_ne_nil t2 rest2 (hrest t2 (List.mem_cons_self _ _)).1
      have : (joinSpace (t :: t2 :: rest2)).getLast? = (joinSpace (t2 :: rest2)).getLast? := by
        show (t ++ ' ' :: joinSpace (t2 :: rest2)).getLast? = _
        rw [List.getLast?_append]
        cases hj : joinSpace (t2 :: rest2) with
        | nil => exact absurd hj hne
        | cons a l => simp [List.getLast?_cons]
      rw [this] at hc
      exact ih hrest c hc

theorem noAdjWS_append (t l : List Char) (ht : ∀ c ∈ t, isPySpace c = false)
    (hl : noAdjWS l = true) : noAdjWS (t ++ l) = true := by
  induction t with
  | nil => simpa using hl
  | cons a t' ih =>
    have ha : isPySpace a = false := ht a (List.mem_cons_self _ _)
    have ht' : ∀ c ∈ t', isPySpace c = false := fun c hc => ht c (List.mem_cons_of_mem _ hc)
    have hrec := ih ht'
    show noAdjWS (a :: (t' ++ l)) = true
    cases ht2 : t' ++ l with
    | nil => rfl
    | cons b l2 =>
      rw [ht2] at hrec
      unfold noAdjWS
      simp [ha, hrec]

theorem noAdjWS_joinSpace (ts : List (List Char))
    (h : ∀ t ∈ ts, t ≠ [] ∧ ∀ c ∈ t, isPySpace c = false) :
    noAdjWS (joinSpace ts) = true := by
  induction ts with
  | nil => rfl
  | cons t rest ih =>
    obtain ⟨htne, htws⟩ := h t (List.mem_cons_self _ _)
    have hrest : ∀ t2 ∈ rest, t2 ≠ [] ∧ ∀ c ∈ t2, isPySpace c = false :=
      fun t2 h2 => h t2 (List.mem_cons_of_mem _ h2)
    cases rest with
    | nil =>
      show noAdjWS (joinSpace [t]) = true
      have : joinSpace [t] = t ++ [] := by simp [joinSpace]
      rw [this]
      exact noAdjWS_append t [] htws rfl
    | cons t2 rest2 =>
      show noAdjWS (t ++ ' ' :: joinSpace (t2 :: rest2)) = true
      refine noAdjWS_append t _ htws ?_
      cases hj : joinSpace (t2 :: rest2) with
      | nil => simp [noAdjWS]
      | cons b l2 =>
        show noAdjWS (' ' :: b :: l2) = true
        unfold noAdjWS
        have hb : isPySpace b = false := by
          refine joinSpace_head_not_ws (t2 :: rest2) hrest b ?_
          rw [hj]
          rfl
        have := ih hrest
        rw [hj] at this
        simp [hb, this]

theorem joinSpace_ws_is_space (ts : List (List Char))
    (h : ∀ t ∈ ts, t ≠ [] ∧ ∀ c ∈ t, isPySpace c = false) :
    ∀ c ∈ joinSpace ts, isPySpace c = true → c = ' ' := by
  induction ts with
  | nil => intro c hc; simp [joinSpace] at hc
  | cons t rest ih =>
    obtain ⟨htne, htws⟩ := h t (List.mem_cons_self _ _)
    have hrest : ∀ t2 ∈ rest, t2 ≠ [] ∧ ∀ c ∈ t2, isPySpace c = false :=
      fun t2 h2 => h t2 (List.mem_cons_of_mem _ h2)
    intro c hc hws
    cases rest with
    | nil =>
      have : joinSpace [t] = t := rfl
      rw [this] at hc
      rw [htws c hc] at hws
      cases hws
    | cons t2 rest2 =>
      have : joinSpace (t :: t2 :: rest2) = t ++ ' ' :: joinSpace (t2 :: rest2) := rfl
      rw [this] at hc
      rcases List.mem_append.mp hc with h1 | h2
      · rw [htws c h1] at hws
        cases hws
      · rcases List.mem_cons.mp h2 with h3 | h4
        · exact h3
        · exact ih hrest c h4 hws

theorem clean_whitespaces_tokens (s : List Char) :
    ∀ t ∈ pySplit s, t ≠ [] ∧ ∀ c ∈ t, isPySpace c = false := by
  intro t ht
  exact pySplitGo_mem s [] t (by simp) ht

theorem clean_whitespaces_idem (s : List Char) :
    clean_whitespaces (clean_whitespaces s) = clean_whitespaces s := by
  unfold clean_whitespaces
  rw [pySplit_joinSpace (pySplit s) (clean_whitespaces_tokens s)]

theorem batch_nil (α : Type) : batch ([] : List α) 10 = [] := by
  rw [batch]
  simp

theorem batch_cons {α : Type} (c : α) (rest : List α) :
    batch (c :: rest) 10 = (c :: rest).take 10 :: batch (rest.drop 9) 10 := by
  rw [batch]
  simp

theorem batch_ten_spec {α : Type} :
    ∀ (n : Nat) (l : List α), l.length ≤ n →
    (batch l 10).length = (l.length + 9) / 10 ∧
    (∀ b ∈ batch l 10, b.length ≤ 10) ∧
    (batch l 10).flatten = l ∧
    (∀ b, (batch l 10).getLast? = some b →
      b.length = if l.length % 10 = 0 then 10 else l.length % 10) := by
  intro n
  induction n with
  | zero =>
    intro l hl
    have hnil : l = [] := by
      cases l with
      | nil => rfl
      | cons c r => simp at hl
    subst hnil
    rw [batch_nil]
    simp
  | succ n ih =>
    intro l hl
    cases l with
    | nil =>
      rw [batch_nil]
      simp
    | cons c rest =>
      have hlen : (rest.drop 9).length ≤ n := by
        simp only [List.length_drop]
        simp only [List.length_cons] at hl
        omega
      obtain ⟨ihL, ihB, ihF, ihLast⟩ := ih (rest.drop 9) hlen
      have htake : (c :: rest).take 10 = c :: rest.take 9 := rfl
      rw [batch_cons]
      refine ⟨?_, ?_, ?_, ?_⟩
      · simp only [List.length_cons, ihL, List.length_drop]
        omega
      · intro b hb
        rcases List.mem_cons.mp hb with h1 | h2
        · subst h1
          simp
        · exact ihB b h2
      · simp only [List.flatten_cons, ihF, htake, List.cons_append,
          List.take_append_drop]
      · intro b hb
        cases hB : batch (rest.drop 9) 10 with
        | nil =>
          rw [hB] at hb
          simp only [List.getLast?_cons, List.getLast?_nil, Option.getD_none,
            Option.some.injEq] at hb
          have hdrop : rest.length ≤ 9 := by
            have h0 := ihL
            rw [hB] at h0
            simp only [List.length_nil, List.length_drop] at h0
            omega
          subst hb
          simp only [List.length_take, List.length_cons]
          by_cases hmod : (rest.length + 1) % 10 = 0
          · rw [if_pos hmod]
            omega
          · rw [if_neg hmod]
            omega
        | cons b2 B2 =>
          rw [hB] at hb
          rw [List.getLast?_cons_cons] at hb
          rw [← hB] at hb
          have hlast := ihLast b hb
          have hge : 10 ≤ rest.length := by
            rcases Nat.eq_zero_or_pos (rest.drop 9).length with h0 | h1
            · exfalso
              have h2 := ihL
              rw [hB] at h2
              simp only [List.length_cons] at h2
              omega
            · simp only [List.length_drop] at h1
              omega
          simp only [List.length_drop] at hlast
          simp only [List.length_cons]
          rw [hlast]
          by_cases hmod : (rest.length - 9) % 10 = 0
          · rw [if_pos hmod, if_pos (by omega)]
          · rw [if_neg hmod, if_neg (by omega)]
            omega

theorem isPyWord_toNat_ge (c : Char) (h : isPyWord c = true) : 48 ≤ c.toNat := by
  unfold isPyWord Char.isAlphanum Char.isAlpha Char.isUpper Char.isLower Char.isDigit at h
  simp only [Bool.or_eq_true, Bool.and_eq_true, decide_eq_true_eq, ge_iff_le, beq_iff_eq] at h
  rcases h with ((⟨h1, _⟩ | ⟨h1, _⟩) | ⟨h1, _⟩) | h1
  · rw [UInt32.le_def, BitVec.le_def] at h1
    exact Nat.le_trans (by decide) h1
  · rw [UInt32.le_def, BitVec.le_def] at h1
    exact Nat.le_trans (by decide) h1
  · rw [UInt32.le_def, BitVec.le_def] at h1
    exact Nat.le_trans (by decide) h1
  · subst h1
    decide

theorem isPyWord_isDoiBodyChar (c : Char) (h : isPyWord c = true) :
    isDoiBodyChar c = true := by
  have hge := isPyWord_toNat_ge c h
  have hne : ∀ d : Char, d.toNat < 48 → (c == d) = false := by
    intro d hd
    rw [beq_eq_false_iff_ne]
    intro he
    subst he
    omega
  unfold isDoiBodyChar isPySpace
  rw [hne ' ' (by decide), hne '\t' (by decide), hne '\n' (by decide),
    hne '\r' (by decide), hne '\x0b' (by decide), hne '\x0c' (by decide)]
  simp only [Bool.or_false, Bool.not_false, Bool.true_and, bne]
  rw [hne '"' (by decide), hne '&' (by decide), hne '\'' (by decide)]
  rfl

theorem isDoiBodyChar_false_not_word (c : Char) (h : isDoiBodyChar c = false) :
    isPyWord c = false := by
  by_contra hw
  rw [Bool.not_eq_false] at hw
  rw [isPyWord_isDoiBodyChar c hw] at h
  cases h

theorem isWordOpt_some (c : Char) : isWordOpt (some c) = isPyWord c := rfl

theorem lastBoundary_cons_eq (c : Char) (rest : List Char) (next : Option Char) :
    lastBoundary (c :: rest) next =
      match lastBoundary rest next with
      | some p => some (p + 1)
      | none =>
        if isWordOpt (some c) != isWordOpt (nextChar rest next) then some 1
        else none := rfl

theorem lastBoundary_cons_some (c : Char) (rest : List Char) (next : Option Char)
    (p : Nat) (h : lastBoundary rest next = some p) :
    lastBoundary (c :: rest) next = some (p + 1) := by
  rw [lastBoundary_cons_eq, h]

theorem lastBoundary_cons_none (c : Char) (rest : List Char) (next : Option Char)
    (h : lastBoundary rest next = none) :
    lastBoundary (c :: rest) next =
      if isWordOpt (some c) != isWordOpt (nextChar rest next) then some 1
      else none := by
  rw [lastBoundary_cons_eq, h]

theorem lastBoundary_bounds (t : List Char) (next : Option Char) :
    ∀ p, lastBoundary t next = some p → 1 ≤ p ∧ p ≤ t.length := by
  induction t with
  | nil => intro p h; simp [lastBoundary] at h
  | cons c rest ih =>
    intro p h
    cases hr : lastBoundary rest next with
    | some q =>
      rw [lastBoundary_cons_some c rest next q hr] at h
      simp only [Option.some.injEq] at h
      have := ih q hr
      simp only [List.length_cons]
      omega
    | none =>
      rw [lastBoundary_cons_none c rest next hr] at h
      split at h
      · simp only [Option.some.injEq] at h
        simp only [List.length_cons]
        omega
      · cases h

theorem lastBoundary_isSome_of_word (next : Option Char) (hnext : isWordOpt next = false) :
    ∀ (rest2 : List Char) (d : Char), isPyWord d = true →
    lastBoundary (d :: rest2) next ≠ none := by
  intro rest2
  induction rest2 with
  | nil =>
    intro d hd
    rw [lastBoundary_cons_none d [] next rfl]
    rw [if_pos]
    · simp
    · rw [isWordOpt_some, hd]
      show (true != isWordOpt next) = true
      rw [hnext]
      rfl
  | cons e r3 ih =>
    intro d hd
    cases hr : lastBoundary (e :: r3) next with
    | some q =>
      rw [lastBoundary_cons_some d (e :: r3) next q hr]
      simp
    | none =>
      rw [lastBoundary_cons_none d (e :: r3) next hr]
      by_cases he : isPyWord e
      · exact absurd hr (ih e he)
      · rw [if_pos]
        · simp
        · rw [isWordOpt_some, hd]
          show (true != isWordOpt (nextChar (e :: r3) next)) = true
          rw [show nextChar (e :: r3) next = some e from rfl, isWordOpt_some]
          simp only [Bool.not_eq_true] at he
          rw [he]
          rfl

theorem lastBoundary_word (t : List Char) (next : Option Char)
    (hnext : isWordOpt next = false) :
    ∀ p, lastBoundary t next = some p →
    isWordOpt (t.drop (p - 1)).head? = true := by
  induction t with
  | nil => intro p h; simp [lastBoundary] at h
  | cons c rest ih =>
    intro p h
    cases hr : lastBoundary rest next with
    | some q =>
      rw [lastBoundary_cons_some c rest next q hr] at h
      simp only [Option.some.injEq] at h
      subst h
      have hq := lastBoundary_bounds rest next q hr
      have hdr : (c :: rest).drop (q + 1 - 1) = rest.drop (q - 1) := by
        have he : q + 1 - 1 = (q - 1) + 1 := by omega
        rw [he, List.drop_succ_cons]
      rw [hdr]
      exact ih q hr
    | none =>
      rw [lastBoundary_cons_none c rest next hr] at h
      split at h
      case isTrue hcond =>
        simp only [Option.some.injEq] at h
        subst h
        simp only [Nat.sub_self, List.drop_zero, List.head?_cons, isWordOpt_some]
        rw [isWordOpt_some] at hcond
        show isPyWord c = true
        by_contra hc
        simp only [Bool.not_eq_true] at hc
        rw [hc] at hcond
        cases rest with
        | nil =>
          rw [show nextChar [] next = next from rfl, hnext] at hcond
          simp at hcond
        | cons d' r2 =>
          rw [show nextChar (d' :: r2) next = some d' from rfl,
            isWordOpt_some] at hcond
          have hd' : isPyWord d' = true := by
            by_contra hd
            simp only [Bool.not_eq_true] at hd
            rw [hd] at hcond
            simp at hcond
          exact absurd hr (lastBoundary_isSome_of_word next hnext r2 d' hd')
      case isFalse => cases h

theorem lastBoundary_full (next : Option Char) (hnext : isWordOpt next = false) :
    ∀ (t : List Char), t ≠ [] → isWordOpt t.getLast? = true →
    lastBoundary t next = some t.length := by
  intro t
  induction t with
  | nil => intro h; exact absurd rfl h
  | cons c rest ih =>
    intro _ hlast
    cases rest with
    | nil =>
      simp only [List.getLast?_cons, List.getLast?_nil, Option.getD_none,
        isWordOpt_some] at hlast
      rw [lastBoundary_cons_none c [] next rfl]
      rw [if_pos]
      · rfl
      · rw [isWordOpt_some, hlast]
        show (true != isWordOpt (nextChar [] next)) = true
        rw [show nextChar [] next = next from rfl, hnext]
        rfl
    | cons r1 r2 =>
      have hlast2 : isWordOpt (r1 :: r2).getLast? = true := by
        rwa [List.getLast?_cons_cons] at hlast
      rw [lastBoundary_cons_some c (r1 :: r2) next (r1 :: r2).length
        (ih (by simp) hlast2)]
      rfl

theorem take_add_split (l : List α) (m k : Nat) :
    l.take (m + k) = l.take m ++ (l.drop m).take k := by
  conv_lhs => rw [← List.take_append_drop m (l.take (m + k))]
  rw [List.take_take, List.take_drop]
  have hmin : min m (m + k) = m := by omega
  rw [hmin]

theorem parseDotRuns_nil : parseDotRuns [] = 0 := by
  rw [parseDotRuns.eq_def]

theorem parseDotRuns_ne_dot (a : Char) (u1 : List Char) (ha : a ≠ '.') :
    parseDotRuns (a :: u1) = 0 := by
  rw [parseDotRuns.eq_def]
  split
  · next heq =>
    injection heq with h1 h2
    exact absurd h1 ha
  · rfl

theorem parseDotRuns_dot_nil : parseDotRuns ['.'] = 0 := by
  rw [parseDotRuns.eq_def]
  rfl

theorem parseDotRuns_dot_cons_nondigit (c : Char) (rest : List Char)
    (hc : c.isDigit = false) : parseDotRuns ('.' :: c :: rest) = 0 := by
  rw [parseDotRuns]
  rw [if_neg (by simp [hc])]

theorem parseDotRuns_dot_cons_digit (c : Char) (rest : List Char)
    (hc : c.isDigit = true) :
    parseDotRuns ('.' :: c :: rest) =
      ((c :: rest).takeWhile Char.isDigit).length + 1 +
        parseDotRuns ((c :: rest).drop ((c :: rest).takeWhile Char.isDigit).length) := by
  rw [parseDotRuns]
  rw [if_pos hc]

theorem parseDotRuns_le : ∀ (n : Nat) (u : List Char), u.length ≤ n →
    parseDotRuns u ≤ u.length := by
  intro n
  induction n with
  | zero =>
    intro u hu
    have hne : u = [] := by
      cases u with
      | nil => rfl
      | cons a u1 => simp at hu
    subst hne
    rw [parseDotRuns_nil]
    exact Nat.zero_le _
  | succ n ih =>
    intro u hu
    cases u with
    | nil =>
      rw [parseDotRuns_nil]
      exact Nat.zero_le _
    | cons a u1 =>
      by_cases ha : a = '.'
      · subst ha
        cases u1 with
        | nil => rw [parseDotRuns_dot_nil]; simp
        | cons c rest =>
          by_cases hc : c.isDigit
          · rw [parseDotRuns_dot_cons_digit c rest hc]
            have h1 : ((c :: rest).takeWhile Char.isDigit).length ≥ 1 := by
              rw [List.takeWhile_cons, if_pos hc]
              simp
            have h2 : ((c :: rest).takeWhile Char.isDigit).length ≤ (c :: rest).length :=
              (List.takeWhile_sublist _).length_le
            have h3 := ih ((c :: rest).drop ((c :: rest).takeWhile Char.isDigit).length)
              (by
                simp only [List.length_drop, List.length_cons]
                simp only [List.length_cons] at hu
                omega)
            simp only [List.length_drop, List.length_cons] at h2 h3 ⊢
            omega
          · rw [parseDotRuns_dot_cons_nondigit c rest (by simpa using hc)]
            simp
      · rw [parseDotRuns_ne_dot a u1 ha]
        simp

theorem parseDotRuns_decomp : ∀ (n : Nat) (u : List Char), u.length ≤ n →
    ∃ parts : List (List Char), (∀ p ∈ parts, IsDotRun p) ∧
      u.take (parseDotRuns u) = parts.flatten := by
  intro n
  induction n with
  | zero =>
    intro u hu
    refine ⟨[], by simp, ?_⟩
    have hne : u = [] := by
      cases u with
      | nil => rfl
      | cons a u1 => simp at hu
    subst hne
    rw [parseDotRuns_nil]
    simp
  | succ n ih =>
    intro u hu
    cases u with
    | nil =>
      refine ⟨[], by simp, ?_⟩
      rw [parseDotRuns_nil]
      simp
    | cons a u1 =>
      by_cases ha : a = '.'
      · subst ha
        cases u1 with
        | nil =>
          refine ⟨[], by simp, ?_⟩
          rw [parseDotRuns_dot_nil]
          simp
        | cons c rest =>
          by_cases hc : c.isDigit
          · rw [parseDotRuns_dot_cons_digit c rest hc]
            obtain ⟨parts', hp', he'⟩ := ih
              ((c :: rest).drop ((c :: rest).takeWhile Char.isDigit).length)
              (by
                simp only [List.length_drop, List.length_cons]
                simp only [List.length_cons] at hu
                omega)
            refine ⟨('.' :: (c :: rest).takeWhile Char.isDigit) :: parts', ?_, ?_⟩
            · intro p hp
              rcases List.mem_cons.mp hp with h1 | h2
              · subst h1
                refine ⟨(c :: rest).takeWhile Char.isDigit, rfl, ?_, ?_⟩
                · rw [List.takeWhile_cons, if_pos hc]
                  simp
                · intro c2 hc2
                  exact List.mem_takeWhile_imp hc2
              · exact hp' p h2
            · simp only [List.flatten_cons]
              rw [show ((c :: rest).takeWhile Char.isDigit).length + 1 +
                  parseDotRuns ((c :: rest).drop
                    ((c :: rest).takeWhile Char.isDigit).length) =
                  (((c :: rest).takeWhile Char.isDigit).length +
                    parseDotRuns ((c :: rest).drop
                      ((c :: rest).takeWhile Char.isDigit).length)) + 1
                from by omega]
              rw [List.take_succ_cons, take_add_split]
              rw [show (c :: rest).take ((c :: rest).takeWhile Char.isDigit).length =
                  (c :: rest).takeWhile Char.isDigit from
                (List.prefix_iff_eq_take.mp (List.takeWhile_prefix _)).symm]
              rw [he']
              simp
          · refine ⟨[], by simp, ?_⟩
            rw [parseDotRuns_dot_cons_nondigit c rest (by simpa using hc)]
            simp
      · refine ⟨[], by simp, ?_⟩
        rw [parseDotRuns_ne_dot a u1 ha]
        simp

theorem takeWhile_all (p : α → Bool) (l : List α) (h : ∀ a ∈ l, p a = true) :
    l.takeWhile p = l :=
  List.takeWhile_eq_self_iff.mpr h

theorem dropWhile_eq_drop_length_takeWhile (p : α → Bool) :
    ∀ l : List α, l.dropWhile p = l.drop (l.takeWhile p).length := by
  intro l
  induction l with
  | nil => rfl
  | cons a l ih =>
    by_cases ha : p a
    · rw [List.dropWhile_cons_of_pos ha, List.takeWhile_cons, if_pos ha]
      simp only [List.length_cons, List.drop_succ_cons]
      exact ih
    · rw [List.dropWhile_cons_of_neg (by simpa using ha), List.takeWhile_cons,
        if_neg (by simpa using ha)]
      simp

theorem head?_dropWhile_false (p : α → Bool) (l : List α) (d : α)
    (h : (l.dropWhile p).head? = some d) : p d = false := by
  have := List.head?_dropWhile_not p l
  rw [h] at this
  exact this

theorem getLast?_take_eq_head?_drop (l : List α) (p : Nat) (h1 : 1 ≤ p)
    (h2 : p ≤ l.length) : (l.take p).getLast? = (l.drop (p - 1)).head? := by
  rw [List.getLast?_eq_getElem?, List.head?_eq_getElem?]
  have hlen : (l.take p).length = p := by
    simp only [List.length_take]
    omega
  rw [hlen]
  rw [List.getElem?_drop]
  rw [show p - 1 + 0 = p - 1 from by omega]
  exact List.getElem?_take_of_lt (by omega)

theorem parseDotRuns_flatten (body : List Char) :
    ∀ (parts : List (List Char)), (∀ p ∈ parts, IsDotRun p) →
    parseDotRuns (parts.flatten ++ '/' :: body) = parts.flatten.length := by
  intro parts
  induction parts with
  | nil =>
    intro _
    simp only [List.flatten_nil, List.nil_append, List.length_nil]
    exact parseDotRuns_ne_dot '/' body (by decide)
  | cons p parts' ih =>
    intro hall
    obtain ⟨e, hpe, hene, hedig⟩ := hall p (List.mem_cons_self _ _)
    have hall' : ∀ q ∈ parts', IsDotRun q := fun q hq => hall q (List.mem_cons_of_mem _ hq)
    subst hpe
    cases e with
    | nil => exact absurd rfl hene
    | cons c e' =>
      simp only [List.flatten_cons, List.cons_append, List.append_assoc]
      have hcd : c.isDigit = true := hedig c (List.mem_cons_self _ _)
      rw [parseDotRuns_dot_cons_digit c (e' ++ (parts'.flatten ++ '/' :: body)) hcd]
      have htw0 : (parts'.flatten ++ '/' :: body).takeWhile Char.isDigit = [] := by
        cases hp' : parts' with
        | nil =>
          simp only [List.flatten_nil, List.nil_append]
          rw [List.takeWhile_cons, if_neg (by decide)]
        | cons p2 ps2 =>
          obtain ⟨e2, hpe2, _, _⟩ := hall' p2 (by rw [hp']; exact List.mem_cons_self _ _)
          subst hpe2
          simp only [List.flatten_cons, List.cons_append]
          rw [List.takeWhile_cons, if_neg (by decide)]
      have htw : ((c :: e') ++ (parts'.flatten ++ '/' :: body)).takeWhile Char.isDigit
          = c :: e' := by
        rw [List.takeWhile_append_of_pos (by intro a ha; exact hedig a ha), htw0]
        simp
      simp only [List.cons_append] at htw
      rw [htw]
      rw [show c :: (e' ++ (parts'.flatten ++ '/' :: body)) =
        (c :: e') ++ (parts'.flatten ++ '/' :: body) from rfl]
      rw [List.drop_left]
      rw [ih hall']
      simp only [List.length_append, List.length_cons]
      omega

theorem isWordOpt_after_run_false (body : List Char) :
    isWordOpt (body.drop (body.takeWhile isDoiBodyChar).length).head? = false := by
  rw [← dropWhile_eq_drop_length_takeWhile]
  cases hd : (body.dropWhile isDoiBodyChar).head? with
  | none => rfl
  | some d =>
    rw [isWordOpt_some]
    exact isDoiBodyChar_false_not_word d (head?_dropWhile_false _ _ _ hd)

theorem pymatchDOI_sound (s : List Char) (n : Nat) (h : pymatchDOI s = some n) :
    FullDOI (s.take n) ∧ 9 ≤ n ∧ n ≤ s.length := by
  unfold pymatchDOI at h
  split at h
  case h_2 => cases h
  case h_1 rest =>
    simp only at h
    by_cases h4 : (rest.takeWhile Char.isDigit).length < 4
    case pos => rw [if_pos h4] at h; cases h
    case neg =>
      rw [if_neg h4] at h
      split at h
      case h_2 => cases h
      case h_1 body heq2 =>
        split at h
        case h_2 => cases h
        case h_1 p heq3 =>
          simp only [Option.some.injEq] at h
          subst h
          have hple := lastBoundary_bounds _ _ p heq3
          have hKle := parseDotRuns_le (rest.drop (rest.takeWhile Char.isDigit).length).length
            (rest.drop (rest.takeWhile Char.isDigit).length) (Nat.le_refl _)
          have hTle : ((body.takeWhile isDoiBodyChar).length) ≤ body.length :=
            (List.takeWhile_sublist _).length_le
          have hDle : (rest.takeWhile Char.isDigit).length ≤ rest.length :=
            (List.takeWhile_sublist _).length_le
          have hR2len : (rest.drop (rest.takeWhile Char.isDigit).length).length =
              rest.length - (rest.takeWhile Char.isDigit).length := by
            simp [List.length_drop]
          have hlenR2 : (rest.drop (rest.takeWhile Char.isDigit).length).length =
              parseDotRuns (rest.drop (rest.takeWhile Char.isDigit).length) + 1 +
                body.length := by
            have hsplit : (rest.drop (rest.takeWhile Char.isDigit).length).take
                (parseDotRuns (rest.drop (rest.takeWhile Char.isDigit).length)) ++
                ((rest.drop (rest.takeWhile Char.isDigit).length).drop
                  (parseDotRuns (rest.drop (rest.takeWhile Char.isDigit).length))) =
                rest.drop (rest.takeWhile Char.isDigit).length :=
              List.take_append_drop _ _
            rw [heq2] at hsplit
            have := congrArg List.length hsplit
            simp only [List.length_append, List.length_take, List.length_cons] at this
            omega
          refine ⟨?_, by omega, ?_⟩
          · -- build the decomposition of s.take n
            obtain ⟨parts, hparts, hflat⟩ := parseDotRuns_decomp
              (rest.drop (rest.takeWhile Char.isDigit).length).length
              (rest.drop (rest.takeWhile Char.isDigit).length) (Nat.le_refl _)
            refine ⟨rest.takeWhile Char.isDigit, parts,
              (body.takeWhile isDoiBodyChar).take p, ?_, by omega, ?_, hparts, ?_, ?_, ?_⟩
            · -- shape of s.take n
              rw [show 3 + (rest.takeWhile Char.isDigit).length +
                  parseDotRuns (rest.drop (rest.takeWhile Char.isDigit).length) + 1 + p =
                  ((rest.takeWhile Char.isDigit).length +
                    (parseDotRuns (rest.drop (rest.takeWhile Char.isDigit).length) + (1 + p)))
                    + 1 + 1 + 1 from by omega]
              rw [List.take_succ_cons, List.take_succ_cons, List.take_succ_cons]
              have hinner : rest.take ((rest.takeWhile Char.isDigit).length +
                  (parseDotRuns (rest.drop (rest.takeWhile Char.isDigit).length) + (1 + p))) =
                  rest.takeWhile Char.isDigit ++
                    (parts.flatten ++ '/' :: (body.takeWhile isDoiBodyChar).take p) := by
                rw [take_add_split]
                congr 1
                · exact (List.prefix_iff_eq_take.mp (List.takeWhile_prefix _)).symm
                · rw [take_add_split]
                  rw [hflat, heq2]
                  congr 1
                  rw [show (1 + p) = p + 1 from by omega, List.take_succ_cons]
                  congr 1
                  rw [show body.take p =
                      (body.take (body.takeWhile isDoiBodyChar).length).take p
                    from by rw [List.take_take]; congr 1; omega]
                  rw [show body.take (body.takeWhile isDoiBodyChar).length =
                    body.takeWhile isDoiBodyChar from
                    (List.prefix_iff_eq_take.mp (List.takeWhile_prefix _)).symm]
              rw [hinner]
              simp [List.append_assoc]
            · intro c hc
              exact List.mem_takeWhile_imp hc
            · -- body' nonempty
              intro hcon
              have := congrArg List.length hcon
              simp only [List.length_take, List.length_nil] at this
              omega
            · intro c hc
              exact List.mem_takeWhile_imp (List.mem_of_mem_take hc)
            · -- last char of body' is a word character
              rw [getLast?_take_eq_head?_drop _ p hple.1 hple.2]
              exact lastBoundary_word _ _ (isWordOpt_after_run_false body) p heq3
          · -- n ≤ s.length
            simp only [List.length_cons]
            omega

theorem fullDOI_pymatch (s : List Char) (h : FullDOI s) :
    pymatchDOI s = some s.length := by
  obtain ⟨ds, parts, body, hs, hds4, hdsdig, hparts, hbne, hbX, hblast⟩ := h
  subst hs
  unfold pymatchDOI
  simp only
  have htw0 : (parts.flatten ++ '/' :: body).takeWhile Char.isDigit = [] := by
    cases hp' : parts with
    | nil =>
      simp only [List.flatten_nil, List.nil_append]
      rw [List.takeWhile_cons, if_neg (by decide)]
    | cons p2 ps2 =>
      obtain ⟨e2, hpe2, _, _⟩ := hparts p2 (by rw [hp']; exact List.mem_cons_self _ _)
      subst hpe2
      simp only [List.flatten_cons, List.cons_append]
      rw [List.takeWhile_cons, if_neg (by decide)]
  have htw : (ds ++ (parts.flatten ++ '/' :: body)).takeWhile Char.isDigit = ds := by
    rw [List.takeWhile_append_of_pos hdsdig, htw0]
    simp
  rw [show ds ++ parts.flatten ++ '/' :: body = ds ++ (parts.flatten ++ '/' :: body)
    from by simp [List.append_assoc]]
  rw [htw]
  rw [if_neg (by omega)]
  rw [List.drop_left]
  rw [parseDotRuns_flatten body parts hparts]
  rw [List.drop_left]
  show (match lastBoundary (body.takeWhile isDoiBodyChar)
      ((body.drop (body.takeWhile isDoiBodyChar).length).head?) with
    | some p => some (3 + ds.length + parts.flatten.length + 1 + p)
    | none => none) = _
  rw [takeWhile_all isDoiBodyChar body hbX]
  rw [List.drop_of_length_le (Nat.le_refl _)]
  simp only [List.head?_nil]
  rw [lastBoundary_full none rfl body hbne hblast]
  simp only [List.length_cons, List.length_append]
  congr 1
  omega

theorem fullDOI_is_valid (s : List Char) (h : FullDOI s) : doi_is_valid s = true := by
  unfold doi_is_valid
  rw [fullDOI_pymatch s h]
  simp

theorem is_valid_fullDOI (s : List Char) (h : doi_is_valid s = true) : FullDOI s := by
  unfold doi_is_valid at h
  cases hm : pymatchDOI s with
  | none => rw [hm] at h; cases h
  | some n =>
    rw [hm] at h
    simp only [beq_iff_eq] at h
    subst h
    have := (pymatchDOI_sound s _ hm).1
    rwa [List.take_of_length_le (Nat.le_refl _)] at this

theorem doiFindallGo_nil (prev : Option Char) : doiFindallGo prev [] = [] := by
  rw [doiFindallGo]

theorem doiFindallGo_cons (prev : Option Char) (c : Char) (rest : List Char) :
    doiFindallGo prev (c :: rest) =
      if !isWordOpt prev then
        match pymatchDOI (c :: rest) with
        | some n => (c :: rest).take n ::
            doiFindallGo ((c :: rest).take n).getLast? (rest.drop (n - 1))
        | none => doiFindallGo (some c) rest
      else doiFindallGo (some c) rest := by
  rw [doiFindallGo]

theorem doiFindallGo_mem : ∀ (fuel : Nat) (s : List Char) (prev : Option Char),
    s.length ≤ fuel → ∀ m ∈ doiFindallGo prev s, FullDOI m := by
  intro fuel
  induction fuel with
  | zero =>
    intro s prev hs m hm
    have : s = [] := by
      cases s with
      | nil => rfl
      | cons c rest => simp at hs
    subst this
    rw [doiFindallGo_nil] at hm
    cases hm
  | succ fuel ih =>
    intro s prev hs m hm
    cases s with
    | nil =>
      rw [doiFindallGo_nil] at hm
      cases hm
    | cons c rest =>
      rw [doiFindallGo_cons] at hm
      simp only [List.length_cons] at hs
      by_cases hw : isWordOpt prev
      · rw [hw] at hm
        rw [if_neg (by simp)] at hm
        exact ih rest (some c) (by omega) m hm
      · simp only [Bool.not_eq_true] at hw
        rw [hw] at hm
        rw [if_pos (by simp)] at hm
        cases hpm : pymatchDOI (c :: rest) with
        | none =>
          rw [hpm] at hm
          exact ih rest (some c) (by omega) m hm
        | some n =>
          rw [hpm] at hm
          obtain ⟨hfull, hn9, hnle⟩ := pymatchDOI_sound (c :: rest) n hpm
          rcases List.mem_cons.mp hm with h1 | h2
          · subst h1
            exact hfull
          · refine ih (rest.drop (n - 1)) _ ?_ m h2
            simp only [List.length_drop]
            omega

theorem doi_extract_valid (text : List Char) :
    ∀ i ∈ doi_extract_from_text text, doi_is_valid i = true := by
  intro i hi
  unfold doi_extract_from_text remove_duplicates at hi
  rw [List.mem_dedup] at hi
  exact fullDOI_is_valid i (doiFindallGo_mem text.length text none (Nat.le_refl _) i hi)

theorem dropLitI_some (lit : List Char) : ∀ (s r : List Char),
    dropLitI lit s = some r →
    ∃ w, s = w ++ r ∧ w.map Char.toLower = lit.map Char.toLower := by
  induction lit with
  | nil =>
    intro s r h
    simp only [dropLitI, Option.some.injEq] at h
    subst h
    exact ⟨[], by simp, by simp⟩
  | cons c cs ih =>
    intro s r h
    cases s with
    | nil => simp [dropLitI] at h
    | cons d ds =>
      simp only [dropLitI] at h
      split at h
      case isTrue hcd =>
        obtain ⟨w', hw1, hw2⟩ := ih ds r h
        refine ⟨d :: w', by simp [hw1], ?_⟩
        simp only [List.map_cons, hw2]
        simp only [beq_iff_eq] at hcd
        rw [hcd]
      case isFalse => cases h

theorem dropLitI_of_map_eq (lit : List Char) : ∀ (w r : List Char),
    w.map Char.toLower = lit.map Char.toLower →
    dropLitI lit (w ++ r) = some r := by
  induction lit with
  | nil =>
    intro w r h
    have : w = [] := by
      have := congrArg List.length h
      simpa using this
    subst this
    rfl
  | cons c cs ih =>
    intro w r h
    cases w with
    | nil => simp at h
    | cons d w' =>
      simp only [List.map_cons, List.cons.injEq] at h
      simp only [List.cons_append, dropLitI]
      rw [if_pos (by simp [h.1])]
      exact ih w' r h.2

theorem dropLitI_none_of_head_ne (c : Char) (cs : List Char) (d : Char) (ds : List Char)
    (h : c.toLower ≠ d.toLower) : dropLitI (c :: cs) (d :: ds) = none := by
  simp only [dropLitI]
  rw [if_neg (by simpa using h)]

theorem sep_split_unique (sep : Char) : ∀ (w1 w2 r1 r2 : List Char),
    w1 ++ sep :: r1 = w2 ++ sep :: r2 → sep ∉ w1 → sep ∉ w2 →
    w1 = w2 ∧ r1 = r2 := by
  intro w1
  induction w1 with
  | nil =>
    intro w2 r1 r2 heq h1 h2
    cases w2 with
    | nil =>
      simp only [List.nil_append, List.cons.injEq] at heq
      exact ⟨rfl, heq.2⟩
    | cons b w2' =>
      simp only [List.nil_append, List.cons_append, List.cons.injEq] at heq
      exfalso
      apply h2
      rw [heq.1]
      exact List.mem_cons_self b w2'
  | cons a w1' ih =>
    intro w2 r1 r2 heq h1 h2
    cases w2 with
    | nil =>
      simp only [List.cons_append, List.nil_append, List.cons.injEq] at heq
      exfalso
      apply h1
      rw [heq.1]
      exact List.mem_cons_self _ _
    | cons b w2' =>
      simp only [List.cons_append, List.cons.injEq] at heq
      have hrec := ih w2' r1 r2 heq.2 (fun hm => h1 (List.mem_cons_of_mem _ hm))
        (fun hm => h2 (List.mem_cons_of_mem _ hm))
      exact ⟨by rw [heq.1, hrec.1], hrec.2⟩

set_option maxHeartbeats 1000000 in
theorem arxivCats_ne_nil : ∀ cat ∈ arxivCategories, cat ≠ [] := by decide

set_option maxHeartbeats 1000000 in
theorem arxivCats_no_slash : ∀ cat ∈ arxivCategories, '/' ∉ cat.map Char.toLower := by
  decide

set_option maxHeartbeats 1000000 in
theorem arxivCats_no_colon : ∀ cat ∈ arxivCategories, ':' ∉ cat.map Char.toLower := by
  decide

set_option maxHeartbeats 1000000 in
theorem arxivCats_head_not_digit :
    ∀ cat ∈ arxivCategories, ((cat.headD '0').toLower).isDigit = false := by decide

theorem arxivLit_no_slash : '/' ∉ arxivLit.map Char.toLower := by decide

theorem arxivLit_has_colon : ':' ∈ arxivLit.map Char.toLower := by decide

theorem char_isUpper_toNat (c : Char) (h : c.isUpper = true) :
    65 ≤ c.toNat ∧ c.toNat ≤ 90 := by
  simp only [Char.isUpper, Bool.and_eq_true, decide_eq_true_eq, ge_iff_le] at h
  obtain ⟨h1, h2⟩ := h
  rw [UInt32.le_def, BitVec.le_def] at h1 h2
  exact ⟨h1, h2⟩

theorem char_isLower_toNat (c : Char) (h : c.isLower = true) :
    97 ≤ c.toNat ∧ c.toNat ≤ 122 := by
  simp only [Char.isLower, Bool.and_eq_true, decide_eq_true_eq, ge_iff_le] at h
  obtain ⟨h1, h2⟩ := h
  rw [UInt32.le_def, BitVec.le_def] at h1 h2
  exact ⟨h1, h2⟩

theorem char_isAlpha_toLower_range (c : Char) (h : c.isAlpha = true) :
    97 ≤ c.toLower.toNat ∧ c.toLower.toNat ≤ 122 := by
  simp only [Char.isAlpha, Bool.or_eq_true] at h
  unfold Char.toLower
  simp only
  rcases h with h | h
  · obtain ⟨h1, h2⟩ := char_isUpper_toNat c h
    rw [if_pos (by omega)]
    rw [char_toNat_ofNat_valid _ (Or.inl (by omega))]
    omega
  · obtain ⟨h1, h2⟩ := char_isLower_toNat c h
    rw [if_neg (by omega)]
    omega

/-- A category-name character other than the dot never matches `/` or a
digit through `toLower`. -/
theorem catChar_ndot (c : Char) (hc : isCatChar c = true) (hnd : c ≠ '.') :
    c.toLower ≠ '/' ∧ (c.toLower).isDigit = false := by
  simp only [isCatChar, Bool.or_eq_true, beq_iff_eq] at hc
  rcases hc with (hc | hc) | hc
  · exact absurd hc hnd
  · obtain ⟨h1, h2⟩ := char_isAlpha_toLower_range c hc
    constructor
    · intro hcon
      rw [hcon] at h1
      have hv : ('/' : Char).toNat = 47 := rfl
      omega
    · by_cases hd : (c.toLower).isDigit = true
      · obtain ⟨g1, g2⟩ := char_isDigit_toNat _ hd
        omega
      · simpa using hd
  · subst hc
    decide

theorem matchesCatI_cons (c d : Char) (cs ds : List Char) :
    matchesCatI (c :: cs) (d :: ds) = (matchOneI c d && matchesCatI cs ds) := rfl

theorem matchesCatI_nil_left (w : List Char) (h : matchesCatI [] w = true) :
    w = [] := by
  cases w with
  | nil => rfl
  | cons d ds => exact Bool.noConfusion (show false = true from h)

theorem matchesCatI_length : ∀ (pat w : List Char), matchesCatI pat w = true →
    w.length = pat.length := by
  intro pat
  induction pat with
  | nil =>
    intro w h
    rw [matchesCatI_nil_left w h]
  | cons c cs ih =>
    intro w h
    cases w with
    | nil => exact Bool.noConfusion (show false = true from h)
    | cons d ds =>
      rw [matchesCatI_cons] at h
      simp only [Bool.and_eq_true] at h
      simp only [List.length_cons, ih ds h.2]

theorem matchesCatI_append_split : ∀ (x pat y : List Char),
    matchesCatI pat (x ++ y) = true →
    ∃ px py, pat = px ++ py ∧ px.length = x.length ∧
      matchesCatI px x = true ∧ matchesCatI py y = true := by
  intro x
  induction x with
  | nil =>
    intro pat y h
    exact ⟨[], pat, rfl, rfl, rfl, h⟩
  | cons d x2 ih =>
    intro pat y h
    cases pat with
    | nil => exact Bool.noConfusion (show false = true from h)
    | cons c pat2 =>
      rw [show (d :: x2) ++ y = d :: (x2 ++ y) from rfl, matchesCatI_cons] at h
      simp only [Bool.and_eq_true] at h
      obtain ⟨px2, py, hp, hl, hm1, hm2⟩ := ih pat2 y h.2
      refine ⟨c :: px2, py, by rw [hp]; rfl, by simp [hl], ?_, hm2⟩
      rw [matchesCatI_cons]
      simp [h.1, hm1]

theorem matchesCatI_take : ∀ (k : Nat) (pat w : List Char),
    matchesCatI pat w = true → matchesCatI (pat.take k) (w.take k) = true := by
  intro k
  induction k with
  | zero => intro pat w _; rfl
  | succ k ih =>
    intro pat w h
    cases pat with
    | nil =>
      rw [matchesCatI_nil_left w h]
      rfl
    | cons c cs =>
      cases w with
      | nil => exact Bool.noConfusion (show false = true from h)
      | cons d ds =>
        rw [matchesCatI_cons] at h
        simp only [Bool.and_eq_true] at h
        simp only [List.take_succ_cons]
        rw [matchesCatI_cons]
        simp [h.1, ih cs ds h.2]

theorem matchesCatI_drop : ∀ (k : Nat) (pat w : List Char),
    matchesCatI pat w = true → matchesCatI (pat.drop k) (w.drop k) = true := by
  intro k
  induction k with
  | zero => intro pat w h; exact h
  | succ k ih =>
    intro pat w h
    cases pat with
    | nil =>
      rw [matchesCatI_nil_left w h]
      rfl
    | cons c cs =>
      cases w with
      | nil => exact Bool.noConfusion (show false = true from h)
      | cons d ds =>
        rw [matchesCatI_cons] at h
        simp only [Bool.and_eq_true] at h
        simp only [List.drop_succ_cons]
        exact ih cs ds h.2

theorem char_toLower_newline (d1 d2 : Char) (h : d1.toLower = d2.toLower) :
    d1 = '\n' ↔ d2 = '\n' := by
  constructor
  · intro h1
    subst h1
    exact char_toLower_eq_of_lt d2 '\n' (by rw [← h]; decide) (by decide)
  · intro h2
    subst h2
    exact char_toLower_eq_of_lt d1 '\n' (by rw [h]; decide) (by decide)

theorem matchOneI_congr (c d1 d2 : Char) (h : d1.toLower = d2.toLower) :
    matchOneI c d1 = matchOneI c d2 := by
  unfold matchOneI
  by_cases hc : (c == '.') = true
  · rw [if_pos hc, if_pos hc]
    by_cases h1 : d1 = '\n'
    · have h2 : d2 = '\n' := (char_toLower_newline d1 d2 h).mp h1
      rw [h1, h2]
    · have h2 : d2 ≠ '\n' := fun hcon => h1 ((char_toLower_newline d1 d2 h).mpr hcon)
      have e1 : (d1 != '\n') = true := by simpa using h1
      have e2 : (d2 != '\n') = true := by simpa using h2
      rw [e1, e2]
  · rw [if_neg hc, if_neg hc, h]

theorem matchesCatI_congr_lower : ∀ (pat w1 w2 : List Char),
    w1.map Char.toLower = w2.map Char.toLower →
    matchesCatI pat w1 = matchesCatI pat w2 := by
  intro pat
  induction pat with
  | nil =>
    intro w1 w2 h
    cases w1 with
    | nil =>
      cases w2 with
      | nil => rfl
      | cons d2 t2 => exact absurd h (by simp)
    | cons d1 t1 =>
      cases w2 with
      | nil => exact absurd h (by simp)
      | cons d2 t2 => rfl
  | cons c cs ih =>
    intro w1 w2 h
    cases w1 with
    | nil =>
      cases w2 with
      | nil => rfl
      | cons d2 t2 => exact absurd h (by simp)
    | cons d1 t1 =>
      cases w2 with
      | nil => exact absurd h (by simp)
      | cons d2 t2 =>
        simp only [List.map_cons, List.cons.injEq] at h
        rw [matchesCatI_cons, matchesCatI_cons, matchOneI_congr c d1 d2 h.1,
          ih t1 t2 h.2]

theorem dropPatI_some (pat : List Char) : ∀ (s r : List Char),
    dropPatI pat s = some r → ∃ w, s = w ++ r ∧ matchesCatI pat w = true := by
  induction pat with
  | nil =>
    intro s r h
    simp only [dropPatI, Option.some.injEq] at h
    subst h
    exact ⟨[], by simp, rfl⟩
  | cons c cs ih =>
    intro s r h
    cases s with
    | nil => exact Option.noConfusion h
    | cons d ds =>
      simp only [dropPatI] at h
      by_cases hm : matchOneI c d = true
      · rw [if_pos hm] at h
        obtain ⟨w2, hw2, hm2⟩ := ih ds r h
        refine ⟨d :: w2, by rw [hw2]; rfl, ?_⟩
        rw [matchesCatI_cons]
        simp [hm, hm2]
      · rw [if_neg hm] at h
        exact Option.noConfusion h

theorem dropPatI_of_matches : ∀ (pat w r : List Char),
    matchesCatI pat w = true → dropPatI pat (w ++ r) = some r := by
  intro pat
  induction pat with
  | nil =>
    intro w r h
    rw [matchesCatI_nil_left w h]
    rfl
  | cons c cs ih =>
    intro w r h
    cases w with
    | nil => exact Bool.noConfusion (show false = true from h)
    | cons d dw =>
      rw [matchesCatI_cons] at h
      simp only [Bool.and_eq_true] at h
      show dropPatI (c :: cs) (d :: (dw ++ r)) = some r
      simp only [dropPatI]
      rw [if_pos h.1]
      exact ih dw r h.2

theorem append_eq_append_split {α : Type} (l₁ t₁ l₂ t₂ : List α)
    (h : l₁ ++ t₁ = l₂ ++ t₂) (hle : l₂.length ≤ l₁.length) :
    ∃ r, l₁ = l₂ ++ r ∧ t₂ = r ++ t₁ := by
  rcases List.append_eq_append_iff.mp h with ⟨a, ha1, ha2⟩ | ⟨c, hc1, hc2⟩
  · have hnil : a = [] := by
      have h1 := congrArg List.length ha1
      simp only [List.length_append] at h1
      have : a.length = 0 := by omega
      exact List.eq_nil_of_length_eq_zero this
    subst hnil
    rw [List.append_nil] at ha1
    rw [List.nil_append] at ha2
    exact ⟨[], by rw [List.append_nil, ha1], by rw [List.nil_append, ha2]⟩
  · exact ⟨c, hc1, hc2⟩

set_option maxHeartbeats 2000000 in
set_option maxRecDepth 4000 in
theorem arxivCats_chars : ∀ cat ∈ arxivCategories, cat.all isCatChar = true := by
  decide

set_option maxHeartbeats 2000000 in
set_option maxRecDepth 4000 in
theorem arxivCats_one_dot : ∀ cat ∈ arxivCategories, cat.count '.' ≤ 1 := by decide

set_option maxHeartbeats 2000000 in
set_option maxRecDepth 4000 in
theorem arxivCats_head_not_dot : ∀ cat ∈ arxivCategories, cat.headD '.' ≠ '.' := by
  decide

set_option maxHeartbeats 8000000 in
set_option maxRecDepth 8000 in
theorem arxivCats_no_arxivLit : ∀ cat ∈ arxivCategories, ∀ t ∈ cat.tails,
    matchesCatI (t.take 6) arxivLit = false := by decide

/-- A non-dot category character never case-insensitively equals `/` or a
digit: used to show where a matched slash or digit forces a dot of the
pattern. -/
theorem matchOneI_slash (c : Char) (hc : isCatChar c = true)
    (h : matchOneI c '/' = true) : c = '.' := by
  by_cases hd : c = '.'
  · exact hd
  · exfalso
    unfold matchOneI at h
    rw [if_neg (by simpa using hd)] at h
    simp only [beq_iff_eq] at h
    rw [show ('/' : Char).toLower = '/' from by decide] at h
    exact (catChar_ndot c hc hd).1 h

theorem matchOneI_digit (c d : Char) (hc : isCatChar c = true) (hd : d.isDigit = true)
    (h : matchOneI c d = true) : c = '.' := by
  by_cases hdd : c = '.'
  · exact hdd
  · exfalso
    unfold matchOneI at h
    rw [if_neg (by simpa using hdd)] at h
    simp only [beq_iff_eq] at h
    rw [char_toLower_of_digit d hd] at h
    have h2 := (catChar_ndot c hc hdd).2
    rw [h, hd] at h2
    exact Bool.noConfusion h2

theorem list_len4 (a : List Char) (h : a.length = 4) :
    ∃ x0 x1 x2 x3, a = [x0, x1, x2, x3] := by
  cases a with
  | nil => simp at h
  | cons x0 a1 =>
    cases a1 with
    | nil => simp at h
    | cons x1 a2 =>
      cases a2 with
      | nil => simp at h
      | cons x2 a3 =>
        cases a3 with
        | nil => simp at h
        | cons x3 a4 =>
          cases a4 with
          | nil => exact ⟨x0, x1, x2, x3, rfl⟩
          | cons x4 a5 => simp only [List.length_cons] at h; omega

theorem arxivVOpt_cons_eq (v : Char) (rest : List Char) :
    arxivVOpt (v :: rest) =
      (if v == 'v' || v == 'V' then
        if (rest.takeWhile Char.isDigit).length == 0 then 0
        else 1 + (rest.takeWhile Char.isDigit).length
      else 0) := rfl

theorem arxivVOpt_sound (u : List Char) :
    arxivVOpt u ≤ u.length ∧
    (u.take (arxivVOpt u) = [] ∨
      ∃ c ds, u.take (arxivVOpt u) = c :: ds ∧ (c = 'v' ∨ c = 'V') ∧ ds ≠ [] ∧
        ∀ c2 ∈ ds, c2.isDigit = true) := by
  cases u with
  | nil => exact ⟨Nat.le_refl _, Or.inl rfl⟩
  | cons v rest =>
    rw [arxivVOpt_cons_eq]
    by_cases hv : (v == 'v' || v == 'V') = true
    · rw [if_pos hv]
      by_cases hrun : ((rest.takeWhile Char.isDigit).length == 0) = true
      · rw [if_pos hrun]
        exact ⟨Nat.zero_le _, Or.inl rfl⟩
      · rw [if_neg hrun]
        simp only [beq_iff_eq] at hrun
        have hlen : (rest.takeWhile Char.isDigit).length ≤ rest.length :=
          (List.takeWhile_sublist _).length_le
        refine ⟨by simp only [List.length_cons]; omega, Or.inr ?_⟩
        refine ⟨v, rest.takeWhile Char.isDigit, ?_, ?_, ?_, ?_⟩
        · rw [show 1 + (rest.takeWhile Char.isDigit).length =
            (rest.takeWhile Char.isDigit).length + 1 from by omega]
          rw [List.take_succ_cons]
          congr 1
          exact (List.prefix_iff_eq_take.mp (List.takeWhile_prefix _)).symm
        · simp only [Bool.or_eq_true, beq_iff_eq] at hv
          exact hv
        · intro hcon
          rw [hcon] at hrun
          simp at hrun
        · intro c2 hc2
          exact List.mem_takeWhile_imp hc2
    · rw [if_neg hv]
      exact ⟨Nat.zero_le _, Or.inl rfl⟩

theorem arxivFrom2007_cons_eq (a b c d : Char) (rest : List Char) :
    arxivFrom2007 (a :: b :: c :: d :: '.' :: rest) =
      (if a.isDigit && b.isDigit && c.isDigit && d.isDigit then
        if (rest.takeWhile Char.isDigit).length < 4 then none
        else some (5 + min (rest.takeWhile Char.isDigit).length 5 +
          arxivVOpt (rest.drop (min (rest.takeWhile Char.isDigit).length 5)))
      else none) := rfl

theorem arxivFrom2007_sound (s : List Char) (n : Nat) (h : arxivFrom2007 s = some n) :
    FullFrom2007 (s.take n) ∧ 9 ≤ n ∧ n ≤ s.length := by
  unfold arxivFrom2007 at h
  split at h
  case h_2 => cases h
  case h_1 a b c d rest =>
    simp only at h
    split at h
    case isFalse => cases h
    case isTrue hdig =>
      by_cases h4 : (rest.takeWhile Char.isDigit).length < 4
      case pos => rw [if_pos h4] at h; cases h
      case neg =>
        rw [if_neg h4] at h
        simp only [Option.some.injEq] at h
        subst h
        obtain ⟨hwle, hwshape⟩ := arxivVOpt_sound
          (rest.drop (min (rest.takeWhile Char.isDigit).length 5))
        have hrunle : (rest.takeWhile Char.isDigit).length ≤ rest.length :=
          (List.takeWhile_sublist _).length_le
        simp only [Bool.and_eq_true] at hdig
        refine ⟨?_, by omega, ?_⟩
        · rw [show 5 + min (rest.takeWhile Char.isDigit).length 5 +
              arxivVOpt (rest.drop (min (rest.takeWhile Char.isDigit).length 5)) =
              (min (rest.takeWhile Char.isDigit).length 5 +
                arxivVOpt (rest.drop (min (rest.takeWhile Char.isDigit).length 5)))
                + 1 + 1 + 1 + 1 + 1 from by omega]
          simp only [List.take_succ_cons]
          rw [take_add_split]
          refine ⟨[a, b, c, d],
            rest.take (min (rest.takeWhile Char.isDigit).length 5),
            (rest.drop (min (rest.takeWhile Char.isDigit).length 5)).take
              (arxivVOpt (rest.drop (min (rest.takeWhile Char.isDigit).length 5))),
            by simp, by simp, ?_, ?_, ?_, ?_⟩
          · intro c2 hc2
            simp only [List.mem_cons, List.not_mem_nil, or_false] at hc2
            rcases hc2 with h1 | h1 | h1 | h1 <;> subst h1 <;> tauto
          · simp only [List.length_take]
            omega
          · intro c2 hc2
            have : rest.take (min (rest.takeWhile Char.isDigit).length 5) =
                (rest.takeWhile Char.isDigit).take
                  (min (rest.takeWhile Char.isDigit).length 5) := by
              rw [show rest.takeWhile Char.isDigit =
                rest.take (rest.takeWhile Char.isDigit).length from
                List.prefix_iff_eq_take.mp (List.takeWhile_prefix _)]
              rw [List.take_take]
              congr 1
              simp only [List.length_take]
              omega
            rw [this] at hc2
            exact List.mem_takeWhile_imp (List.mem_of_mem_take hc2)
          · rcases hwshape with h1 | ⟨vc, ds, h1, h2, h3, h4⟩
            · exact Or.inl h1
            · exact Or.inr ⟨vc, ds, h1, h2, h3, h4⟩
        · simp only [List.length_cons, List.length_drop] at hwle ⊢
          omega

theorem arxivFrom2007_complete (s : List Char) (h : FullFrom2007 s) :
    arxivFrom2007 s = some s.length := by
  obtain ⟨a, b, v, hs, ha4, had, hb45, hbd, hv⟩ := h
  obtain ⟨x0, x1, x2, x3, hx⟩ := list_len4 a ha4
  subst hx
  subst hs
  rw [show ([x0, x1, x2, x3] ++ '.' :: (b ++ v) : List Char) =
    x0 :: x1 :: x2 :: x3 :: '.' :: (b ++ v) from rfl]
  rw [arxivFrom2007_cons_eq]
  have h0 : x0.isDigit = true := had _ (by simp)
  have h1 : x1.isDigit = true := had _ (by simp)
  have h2 : x2.isDigit = true := had _ (by simp)
  have h3 : x3.isDigit = true := had _ (by simp)
  rw [if_pos (by rw [h0, h1, h2, h3]; rfl)]
  have htw : (b ++ v).takeWhile Char.isDigit = b := by
    rw [List.takeWhile_append_of_pos hbd]
    rcases hv with hv | ⟨vc, ds, hveq, hvc, hds, hdsd⟩
    · subst hv; simp
    · subst hveq
      have hvcd : vc.isDigit = false := by
        rcases hvc with hh | hh <;> subst hh <;> decide
      rw [List.takeWhile_cons, if_neg (by simp [hvcd]), List.append_nil]
  rw [htw]
  have h45 : 4 ≤ b.length ∧ b.length ≤ 5 := by rcases hb45 with hh | hh <;> omega
  rw [if_neg (by omega)]
  rw [show min b.length 5 = b.length from by omega]
  rw [List.drop_left]
  have hvopt : arxivVOpt v = v.length := by
    rcases hv with hv | ⟨vc, ds, hveq, hvc, hds, hdsd⟩
    · subst hv; rfl
    · subst hveq
      rw [arxivVOpt_cons_eq]
      have hvcb : (vc == 'v' || vc == 'V') = true := by
        rcases hvc with hh | hh <;> subst hh <;> rfl
      rw [if_pos hvcb]
      rw [takeWhile_all _ _ hdsd]
      rw [if_neg (by intro hcon; exact hds (List.eq_nil_of_length_eq_zero
        (by simpa using hcon)))]
      simp only [List.length_cons]
      omega
  rw [hvopt]
  congr 1
  simp only [List.length_cons, List.length_append]
  omega

theorem arxivFrom2007_none_of_head_not_digit (c : Char) (t : List Char)
    (hc : c.isDigit = false) : arxivFrom2007 (c :: t) = none := by
  unfold arxivFrom2007
  split
  case h_2 => rfl
  case h_1 a b c2 d rest heq =>
    injection heq with ha _
    rw [← ha, hc]
    simp

theorem arxivTryCats_cons_eq (cat : List Char) (cats : List (List Char)) (s : List Char) :
    arxivTryCats (cat :: cats) s =
      (match dropPatI cat s with
      | some rest =>
        match rest with
        | '/' :: r2 =>
          if (r2.takeWhile Char.isDigit).length == 0 then arxivTryCats cats s
          else some (cat.length + 1 + (r2.takeWhile Char.isDigit).length)
        | _ => arxivTryCats cats s
      | none => arxivTryCats cats s) := rfl

theorem arxivTryCats_cons_none (cat : List Char) (cats : List (List Char)) (s : List Char)
    (h : dropPatI cat s = none) :
    arxivTryCats (cat :: cats) s = arxivTryCats cats s := by
  rw [arxivTryCats_cons_eq, h]

theorem arxivTryCats_cons_slash (cat : List Char) (cats : List (List Char))
    (s r2 : List Char) (h : dropPatI cat s = some ('/' :: r2)) :
    arxivTryCats (cat :: cats) s =
      (if (r2.takeWhile Char.isDigit).length == 0 then arxivTryCats cats s
       else some (cat.length + 1 + (r2.takeWhile Char.isDigit).length)) := by
  rw [arxivTryCats_cons_eq, h]
  rfl

theorem arxivTryCats_cons_some_nil (cat : List Char) (cats : List (List Char))
    (s : List Char) (h : dropPatI cat s = some []) :
    arxivTryCats (cat :: cats) s = arxivTryCats cats s := by
  rw [arxivTryCats_cons_eq, h]

theorem arxivTryCats_cons_nonslash (cat : List Char) (cats : List (List Char))
    (s : List Char) (c : Char) (r2 : List Char) (h : dropPatI cat s = some (c :: r2))
    (hc : c ≠ '/') :
    arxivTryCats (cat :: cats) s = arxivTryCats cats s := by
  rw [arxivTryCats_cons_eq, h]
  show (match c :: r2 with
    | '/' :: r2 =>
      if (r2.takeWhile Char.isDigit).length == 0 then arxivTryCats cats s
      else some (cat.length + 1 + (r2.takeWhile Char.isDigit).length)
    | _ => arxivTryCats cats s) = arxivTryCats cats s
  split
  · rename_i heq
    injection heq with hh _
    exact absurd hh hc
  · rfl

theorem arxivCore_eq_of_from2007 (s : List Char) (n : Nat)
    (h : arxivFrom2007 s = some n) : arxivCore s = some n := by
  show (match arxivFrom2007 s with
    | some n => some n
    | none => arxivTryCats arxivCategories s) = some n
  rw [h]

theorem arxivCore_eq_of_not_from2007 (s : List Char) (h : arxivFrom2007 s = none) :
    arxivCore s = arxivTryCats arxivCategories s := by
  show (match arxivFrom2007 s with
    | some n => some n
    | none => arxivTryCats arxivCategories s) = arxivTryCats arxivCategories s
  rw [h]

theorem pymatchArxiv_eq_of_no_lit (s : List Char) (h : dropLitI arxivLit s = none) :
    pymatchArxiv s = arxivCore s := by
  show (match dropLitI arxivLit s with
    | some rest =>
      match arxivCore rest with
      | some n => some (6 + n)
      | none => arxivCore s
    | none => arxivCore s) = arxivCore s
  rw [h]

theorem pymatchArxiv_eq_of_prefix_hit (s rest : List Char) (n : Nat)
    (h : dropLitI arxivLit s = some rest) (h2 : arxivCore rest = some n) :
    pymatchArxiv s = some (6 + n) := by
  show (match dropLitI arxivLit s with
    | some rest =>
      match arxivCore rest with
      | some n => some (6 + n)
      | none => arxivCore s
    | none => arxivCore s) = some (6 + n)
  rw [h]
  show (match arxivCore rest with
    | some n => some (6 + n)
    | none => arxivCore s) = some (6 + n)
  rw [h2]

theorem pymatchArxiv_eq_of_prefix_miss (s rest : List Char)
    (h : dropLitI arxivLit s = some rest) (h2 : arxivCore rest = none) :
    pymatchArxiv s = arxivCore s := by
  show (match dropLitI arxivLit s with
    | some rest =>
      match arxivCore rest with
      | some n => some (6 + n)
      | none => arxivCore s
    | none => arxivCore s) = arxivCore s
  rw [h]
  show (match arxivCore rest with
    | some n => some (6 + n)
    | none => arxivCore s) = arxivCore s
  rw [h2]

theorem arxivTryCats_sound (cats : List (List Char)) (s : List Char) (n : Nat)
    (hsub : ∀ c ∈ cats, c ∈ arxivCategories)
    (h : arxivTryCats cats s = some n) :
    FullBefore2007 (s.take n) ∧ 1 ≤ n ∧ n ≤ s.length := by
  induction cats with
  | nil =>
    rw [show arxivTryCats [] s = none from rfl] at h
    exact Option.noConfusion h
  | cons cat cats ih =>
    have hcat : cat ∈ arxivCategories := hsub cat (List.mem_cons_self _ _)
    have hsub2 : ∀ c ∈ cats, c ∈ arxivCategories :=
      fun c hc => hsub c (List.mem_cons_of_mem _ hc)
    cases hdl : dropPatI cat s with
    | none =>
      rw [arxivTryCats_cons_none _ _ _ hdl] at h
      exact ih hsub2 h
    | some rest =>
      cases rest with
      | nil =>
        rw [arxivTryCats_cons_some_nil _ _ _ hdl] at h
        exact ih hsub2 h
      | cons c r2 =>
        by_cases hc : c = '/'
        · subst hc
          rw [arxivTryCats_cons_slash _ _ _ _ hdl] at h
          by_cases hrun : ((r2.takeWhile Char.isDigit).length == 0) = true
          · rw [if_pos hrun] at h
            exact ih hsub2 h
          · rw [if_neg hrun] at h
            simp only [Option.some.injEq] at h
            subst h
            obtain ⟨w, hw, hwm⟩ := dropPatI_some cat s _ hdl
            have hwlen : w.length = cat.length := matchesCatI_length cat w hwm
            have hrunle : (r2.takeWhile Char.isDigit).length ≤ r2.length :=
              (List.takeWhile_sublist _).length_le
            refine ⟨⟨cat, w, r2.takeWhile Char.isDigit, hcat, ?_, hwm, ?_, ?_⟩,
              by omega, ?_⟩
            · subst hw
              rw [show cat.length + 1 + (r2.takeWhile Char.isDigit).length =
                w.length + (1 + (r2.takeWhile Char.isDigit).length) from by omega]
              rw [take_add_split, List.take_left, List.drop_left]
              congr 1
              rw [show 1 + (r2.takeWhile Char.isDigit).length =
                (r2.takeWhile Char.isDigit).length + 1 from by omega]
              rw [List.take_succ_cons]
              congr 1
              exact (List.prefix_iff_eq_take.mp (List.takeWhile_prefix _)).symm
            · intro hcon
              rw [hcon] at hrun
              simp at hrun
            · intro c2 hc2
              exact List.mem_takeWhile_imp hc2
            · subst hw
              simp only [List.length_append, List.length_cons]
              omega
        · rw [arxivTryCats_cons_nonslash _ _ _ _ _ hdl hc] at h
          exact ih hsub2 h

theorem arxivTryCats_complete (cats : List (List Char)) (s : List Char)
    (pre ds cat : List Char)
    (hcat : cat ∈ cats) (hs : s = pre ++ '/' :: ds)
    (hm : matchesCatI cat pre = true)
    (hds : ds ≠ []) (hdsd : ∀ c ∈ ds, c.isDigit = true)
    (hsub : ∀ c ∈ cats, c ∈ arxivCategories) :
    arxivTryCats cats s = some s.length := by
  have hcatA : cat ∈ arxivCategories := hsub cat hcat
  have hplen : pre.length = cat.length := matchesCatI_length cat pre hm
  induction cats with
  | nil => exact absurd hcat (List.not_mem_nil _)
  | cons cat2 cats ih =>
    have hcat2A : cat2 ∈ arxivCategories := hsub cat2 (List.mem_cons_self _ _)
    have hsub2 : ∀ c ∈ cats, c ∈ arxivCategories :=
      fun c hc => hsub c (List.mem_cons_of_mem _ hc)
    cases hdl : dropPatI cat2 s with
    | none =>
      rw [arxivTryCats_cons_none _ _ _ hdl]
      rcases List.mem_cons.mp hcat with hh | hmem
      · exfalso
        subst hh
        rw [hs, dropPatI_of_matches cat pre ('/' :: ds) hm] at hdl
        exact Option.noConfusion hdl
      · exact ih hmem hsub2
    | some rest =>
      obtain ⟨w2, hw2, hw2m⟩ := dropPatI_some cat2 s rest hdl
      have hw2len : w2.length = cat2.length := matchesCatI_length cat2 w2 hw2m
      cases rest with
      | nil =>
        rw [arxivTryCats_cons_some_nil _ _ _ hdl]
        rcases List.mem_cons.mp hcat with hh | hmem
        · exfalso
          subst hh
          rw [hs, dropPatI_of_matches cat pre ('/' :: ds) hm] at hdl
          injection hdl with hx
          exact List.noConfusion hx
        · exact ih hmem hsub2
      | cons c r2 =>
        by_cases hc : c = '/'
        · subst hc
          rw [arxivTryCats_cons_slash _ _ _ _ hdl]
          have happ : pre ++ '/' :: ds = w2 ++ '/' :: r2 := by rw [← hs, hw2]
          by_cases hrun : ((r2.takeWhile Char.isDigit).length == 0) = true
          · -- digit run after this alternative is empty: the engine moves on;
            -- our category cannot be this alternative (its run is ds ≠ []).
            rw [if_pos hrun]
            rcases List.mem_cons.mp hcat with hh | hmem
            · exfalso
              subst hh
              rw [hs, dropPatI_of_matches cat pre ('/' :: ds) hm] at hdl
              injection hdl with hx
              injection hx with _ hx2
              subst hx2
              rw [takeWhile_all _ _ hdsd] at hrun
              simp only [beq_iff_eq] at hrun
              exact hds (List.eq_nil_of_length_eq_zero hrun)
            · exact ih hmem hsub2
          · rw [if_neg hrun]
            -- the digit run is non-empty, so this alternative matches; show the
            -- match covers all of s by comparing the two decompositions.
            have hr2head : ∃ p0 t2, r2 = p0 :: t2 ∧ p0.isDigit = true := by
              cases hr : r2 with
              | nil =>
                exfalso
                rw [hr] at hrun
                simp at hrun
              | cons p0 t2 =>
                refine ⟨p0, t2, rfl, ?_⟩
                by_cases hp : p0.isDigit = true
                · exact hp
                · exfalso
                  rw [hr] at hrun
                  rw [List.takeWhile_cons, if_neg (by simpa using hp)] at hrun
                  simp at hrun
            by_cases hlen : w2.length = pre.length
            · obtain ⟨hwp, htl⟩ := List.append_inj happ.symm (by omega)
              injection htl with _ hr2
              subst hr2
              rw [takeWhile_all _ _ hdsd]
              congr 1
              rw [hs]
              simp only [List.length_append, List.length_cons]
              omega
            · by_cases hlt : w2.length < pre.length
              · -- the matched name would end strictly inside `pre`: the `/` and
                -- the digit after it would both have to sit on dots of `cat`,
                -- but a category name has at most one dot.
                exfalso
                obtain ⟨r, hr1, hr2⟩ := append_eq_append_split pre ('/' :: ds)
                  w2 ('/' :: r2) happ (by omega)
                cases r with
                | nil =>
                  rw [List.append_nil] at hr1
                  rw [hr1] at hlt
                  omega
                | cons rc rt =>
                  rw [List.cons_append] at hr2
                  injection hr2 with hrc hr2b
                  obtain ⟨p0, t2, hr2c, hp0⟩ := hr2head
                  cases rt with
                  | nil =>
                    rw [List.nil_append] at hr2b
                    rw [hr2c] at hr2b
                    injection hr2b with hx _
                    rw [hx] at hp0
                    exact absurd hp0 (by decide)
                  | cons rt0 rt2 =>
                    rw [List.cons_append] at hr2b
                    rw [hr2c] at hr2b
                    injection hr2b with hx _
                    subst hx
                    rw [← hrc] at hr1
                    have hmm : matchesCatI cat (w2 ++ '/' :: p0 :: rt2) = true := by
                      rw [← hr1]
                      exact hm
                    obtain ⟨px, py, hpat, hpxlen, hpx, hpy⟩ :=
                      matchesCatI_append_split w2 cat ('/' :: p0 :: rt2) hmm
                    cases py with
                    | nil => exact Bool.noConfusion (show false = true from hpy)
                    | cons cd py2 =>
                      rw [matchesCatI_cons] at hpy
                      simp only [Bool.and_eq_true] at hpy
                      cases py2 with
                      | nil => exact Bool.noConfusion (show false = true from hpy.2)
                      | cons cd2 py3 =>
                        rw [matchesCatI_cons] at hpy
                        simp only [Bool.and_eq_true] at hpy
                        have hchars := arxivCats_chars cat hcatA
                        rw [List.all_eq_true] at hchars
                        have hcdmem : cd ∈ cat := by
                          rw [hpat]
                          exact List.mem_append_right _ (List.mem_cons_self _ _)
                        have hcd2mem : cd2 ∈ cat := by
                          rw [hpat]
                          exact List.mem_append_right _
                            (List.mem_cons_of_mem _ (List.mem_cons_self _ _))
                        have hcd : cd = '.' :=
                          matchOneI_slash cd (hchars cd hcdmem) hpy.1
                        have hcd2 : cd2 = '.' :=
                          matchOneI_digit cd2 p0 (hchars cd2 hcd2mem) hp0 hpy.2.1
                        have hcount : 2 ≤ cat.count '.' := by
                          rw [hpat, hcd, hcd2]
                          rw [List.count_append]
                          rw [List.count_cons_self, List.count_cons_self]
                          omega
                        have := arxivCats_one_dot cat hcatA
                        omega
              · -- the matched name would extend past `pre`: then the `/` after
                -- `pre` and at least one digit of `ds` lie inside the name, and
                -- a `/` would have to appear inside the digit run `ds`.
                exfalso
                obtain ⟨r, hr1, hr2⟩ := append_eq_append_split w2 ('/' :: r2)
                  pre ('/' :: ds) happ.symm (by omega)
                cases r with
                | nil =>
                  rw [List.append_nil] at hr1
                  rw [hr1] at hlen
                  exact hlen rfl
                | cons rc rt =>
                  rw [List.cons_append] at hr2
                  injection hr2 with hrc hr2b
                  have hslash : '/' ∈ ds := by
                    rw [hr2b]
                    exact List.mem_append_right _ (List.mem_cons_self _ _)
                  have := hdsd '/' hslash
                  exact absurd this (by decide)
        · rw [arxivTryCats_cons_nonslash _ _ _ _ _ hdl hc]
          rcases List.mem_cons.mp hcat with hh | hmem
          · exfalso
            subst hh
            rw [hs, dropPatI_of_matches cat pre ('/' :: ds) hm] at hdl
            injection hdl with hx
            injection hx with h1 _
            exact hc h1.symm
          · exact ih hmem hsub2

theorem arxivCore_sound (s : List Char) (n : Nat) (h : arxivCore s = some n) :
    (FullFrom2007 (s.take n) ∨ FullBefore2007 (s.take n)) ∧ 1 ≤ n ∧ n ≤ s.length := by
  cases hf : arxivFrom2007 s with
  | some m =>
    rw [arxivCore_eq_of_from2007 s m hf] at h
    injection h with h
    subst h
    obtain ⟨h1, h2, h3⟩ := arxivFrom2007_sound s _ hf
    exact ⟨Or.inl h1, by omega, h3⟩
  | none =>
    rw [arxivCore_eq_of_not_from2007 s hf] at h
    obtain ⟨h1, h2, h3⟩ := arxivTryCats_sound arxivCategories s n (fun c hc => hc) h
    exact ⟨Or.inr h1, h2, h3⟩

theorem arxivCore_complete (s : List Char)
    (h : FullFrom2007 s ∨ FullBefore2007 s) : arxivCore s = some s.length := by
  rcases h with h | h
  · exact arxivCore_eq_of_from2007 s _ (arxivFrom2007_complete s h)
  · obtain ⟨cat, pre, ds, hcat, hs, hm, hds, hdsd⟩ := h
    have hfnone : arxivFrom2007 s = none := by
      cases hp : pre with
      | nil =>
        exfalso
        rw [hp] at hm
        have hlen := matchesCatI_length cat [] hm
        simp only [List.length_nil] at hlen
        have hcnil : cat = [] := List.eq_nil_of_length_eq_zero hlen.symm
        have hhd := arxivCats_head_not_dot cat hcat
        rw [hcnil] at hhd
        exact hhd rfl
      | cons p0 ptl =>
        subst hs
        rw [hp, List.cons_append]
        apply arxivFrom2007_none_of_head_not_digit
        rw [hp] at hm
        cases hcn : cat with
        | nil =>
          rw [hcn] at hm
          exact absurd (matchesCatI_nil_left _ hm) (by simp)
        | cons c0 ctl =>
          rw [hcn] at hm
          rw [matchesCatI_cons] at hm
          simp only [Bool.and_eq_true] at hm
          have hc0 : c0 ≠ '.' := by
            have hhd := arxivCats_head_not_dot cat hcat
            rw [hcn] at hhd
            simpa using hhd
          have hmol := hm.1
          unfold matchOneI at hmol
          rw [if_neg (by simpa using hc0)] at hmol
          simp only [beq_iff_eq] at hmol
          by_cases hpd : p0.isDigit = true
          · exfalso
            have h1 : p0.toLower = p0 := char_toLower_of_digit p0 hpd
            have h2 := arxivCats_head_not_digit cat hcat
            rw [hcn] at h2
            simp only [List.headD_cons] at h2
            rw [hmol, h1, hpd] at h2
            exact Bool.noConfusion h2
          · simpa using hpd
    rw [arxivCore_eq_of_not_from2007 s hfnone]
    exact arxivTryCats_complete arxivCategories s pre ds cat hcat hs hm hds hdsd
      (fun c hc => hc)

/-- No suffix of a string fully matched by either identifier form starts
with a (case-insensitive) `arxiv:`: in the 2007 form every character
lowers to a digit, `.` or `v`; in the earlier form a colon can only sit
on the dot of a category name, and the five letters before it would
force `arxiv` into the name, which `arxivCats_no_arxivLit` rules out. -/
theorem fullCore_no_arxivLit (core : List Char)
    (h : FullFrom2007 core ∨ FullBefore2007 core) :
    ∀ i, dropLitI arxivLit (core.drop i) = none := by
  intro i
  cases hdl : dropLitI arxivLit (core.drop i) with
  | none => rfl
  | some r =>
    exfalso
    obtain ⟨w, hw, hwmap⟩ := dropLitI_some arxivLit (core.drop i) r hdl
    have hwlen : w.length = 6 := by
      have := congrArg List.length hwmap
      simpa using this
    obtain ⟨wh, wt, hwc⟩ : ∃ wh wt, w = wh :: wt := by
      cases w with
      | nil => simp at hwlen
      | cons a b => exact ⟨a, b, rfl⟩
    subst hwc
    have hwh : wh.toLower = 'a' := by
      have e0 := congrArg (fun l => l.headD 'z') hwmap
      simp only [List.map_cons, List.headD_cons] at e0
      rw [e0]
      rfl
    rcases h with hful | hful
    · have hwhcore : wh ∈ core := by
        refine List.drop_subset i core ?_
        rw [hw]
        exact List.mem_append_left _ (List.mem_cons_self _ _)
      obtain ⟨a, b, v, hcs, ha4, had, hb45, hbd, hv⟩ := hful
      subst hcs
      simp only [List.mem_append, List.mem_cons] at hwhcore
      rcases hwhcore with h1 | h1 | h1
      · have hd := had wh h1
        have hweq : wh = 'a' := (char_toLower_of_digit wh hd).symm.trans hwh
        rw [hweq] at hd
        exact absurd hd (by decide)
      · rw [h1] at hwh
        exact absurd hwh (by decide)
      · rcases h1 with h1 | h1
        · have hd := hbd wh h1
          have hweq : wh = 'a' := (char_toLower_of_digit wh hd).symm.trans hwh
          rw [hweq] at hd
          exact absurd hd (by decide)
        · rcases hv with hv | ⟨vc, ds, hveq, hvc, hds, hdsd⟩
          · rw [hv] at h1
            exact absurd h1 (List.not_mem_nil _)
          · rw [hveq] at h1
            rcases List.mem_cons.mp h1 with h2 | h2
            · subst h2
              rcases hvc with h3 | h3 <;> rw [h3] at hwh <;>
                exact absurd hwh (by decide)
            · have hd := hdsd wh h2
              have hweq : wh = 'a' := (char_toLower_of_digit wh hd).symm.trans hwh
              rw [hweq] at hd
              exact absurd hd (by decide)
    · obtain ⟨cat, pre, ds, hcat, hcs, hm, hds, hdsd⟩ := hful
      subst hcs
      by_cases hi : i < pre.length
      · have hdrop : (pre ++ '/' :: ds).drop i = pre.drop i ++ '/' :: ds :=
          List.drop_append_of_le_length (by omega)
        rw [hdrop] at hw
        by_cases hle : 6 ≤ (pre.drop i).length
        · obtain ⟨rest2, hrest2, _⟩ := append_eq_append_split (pre.drop i)
            ('/' :: ds) (wh :: wt) r hw (by rw [List.length_cons] at hwlen ⊢; omega)
          have hw6 : wh :: wt = (pre.drop i).take 6 := by
            rw [hrest2]
            exact (List.take_left' hwlen).symm
          have hm6 : matchesCatI ((cat.drop i).take 6) ((pre.drop i).take 6) =
              true := matchesCatI_take 6 _ _ (matchesCatI_drop i cat pre hm)
          have hcongr : matchesCatI ((cat.drop i).take 6) arxivLit = true := by
            have e := matchesCatI_congr_lower ((cat.drop i).take 6) arxivLit
              ((pre.drop i).take 6) (by rw [← hw6]; exact hwmap.symm)
            rw [e]
            exact hm6
          have hfact := arxivCats_no_arxivLit cat hcat (cat.drop i)
            ((List.mem_tails _ _).mpr (List.drop_suffix i cat))
          rw [hcongr] at hfact
          exact Bool.noConfusion hfact
        · obtain ⟨r2, hr2, hr2b⟩ := append_eq_append_split (wh :: wt) r
            (pre.drop i) ('/' :: ds) hw.symm (by rw [hwlen]; omega)
          cases r2 with
          | nil =>
            rw [List.append_nil] at hr2
            rw [← hr2, hwlen] at hle
            omega
          | cons rc rt =>
            rw [List.cons_append] at hr2b
            injection hr2b with hrc _
            have hslash : '/' ∈ wh :: wt := by
              rw [hr2, hrc]
              exact List.mem_append_right _ (List.mem_cons_self _ _)
            have hmem : '/' ∈ (wh :: wt).map Char.toLower := by
              have := List.mem_map_of_mem Char.toLower hslash
              simpa using this
            rw [hwmap] at hmem
            exact arxivLit_no_slash hmem
      · have hdrop : (pre ++ '/' :: ds).drop i =
            ('/' :: ds).drop (i - pre.length) := by
          calc (pre ++ '/' :: ds).drop i
              = ((pre ++ '/' :: ds).drop pre.length).drop (i - pre.length) := by
                rw [List.drop_drop]
                congr 1
                omega
            _ = ('/' :: ds).drop (i - pre.length) := by rw [List.drop_left]
        rw [hdrop] at hw
        cases hu : ('/' :: ds).drop (i - pre.length) with
        | nil =>
          rw [hu] at hw
          have := congrArg List.length hw
          simp only [List.length_nil, List.length_append, List.length_cons] at this
          omega
        | cons u0 ut =>
          rw [hu] at hw
          have hu0 : u0 ∈ '/' :: ds := by
            refine List.drop_subset (i - pre.length) ('/' :: ds) ?_
            rw [hu]
            exact List.mem_cons_self _ _
          rw [show (wh :: wt) ++ r = wh :: (wt ++ r) from rfl] at hw
          injection hw with hwu _
          rcases List.mem_cons.mp hu0 with h1 | h1
          · rw [← hwu, h1] at hwh
            exact absurd hwh (by decide)
          · have hd := hdsd u0 h1
            rw [← hwu] at hwh
            have hueq : u0 = 'a' := (char_toLower_of_digit u0 hd).symm.trans hwh
            rw [hueq] at hd
            exact absurd hd (by decide)
theorem pymatchArxiv_sound (s : List Char) (n : Nat) (h : pymatchArxiv s = some n) :
    FullArxiv (s.take n) ∧ 1 ≤ n ∧ n ≤ s.length := by
  cases hdl : dropLitI arxivLit s with
  | none =>
    rw [pymatchArxiv_eq_of_no_lit s hdl] at h
    obtain ⟨h1, h2, h3⟩ := arxivCore_sound s n h
    exact ⟨⟨[], s.take n, by simp, Or.inl rfl, h1⟩, h2, h3⟩
  | some rest =>
    obtain ⟨w, hw, hwmap⟩ := dropLitI_some arxivLit s rest hdl
    have hwlen : w.length = 6 := by
      have := congrArg List.length hwmap
      simpa using this
    cases hcr : arxivCore rest with
    | some m =>
      rw [pymatchArxiv_eq_of_prefix_hit s rest m hdl hcr] at h
      injection h with h
      subst h
      obtain ⟨h1, h2, h3⟩ := arxivCore_sound rest m hcr
      constructor
      · refine ⟨w, rest.take m, ?_, Or.inr hwmap, h1⟩
        subst hw
        rw [show 6 + m = w.length + m from by omega]
        rw [take_add_split, List.take_left, List.drop_left]
      · subst hw
        simp only [List.length_append]
        omega
    | none =>
      rw [pymatchArxiv_eq_of_prefix_miss s rest hdl hcr] at h
      obtain ⟨h1, h2, h3⟩ := arxivCore_sound s n h
      exact ⟨⟨[], s.take n, by simp, Or.inl rfl, h1⟩, h2, h3⟩

theorem fullArxiv_pymatch (s : List Char) (h : FullArxiv s) :
    pymatchArxiv s = some s.length := by
  obtain ⟨pre, core, hs, hpre, hcore⟩ := h
  have hcorem : arxivCore core = some core.length := arxivCore_complete core hcore
  rcases hpre with hpre | hpre
  · subst hpre
    simp only [List.nil_append] at hs
    subst hs
    have hdl : dropLitI arxivLit s = none := by
      have h0 := fullCore_no_arxivLit s hcore 0
      simpa using h0
    rw [pymatchArxiv_eq_of_no_lit s hdl]
    exact hcorem
  · have hdl : dropLitI arxivLit s = some core := by
      rw [hs]
      exact dropLitI_of_map_eq arxivLit pre core hpre
    rw [pymatchArxiv_eq_of_prefix_hit s core core.length hdl hcorem]
    congr 1
    have hplen : pre.length = 6 := by
      have := congrArg List.length hpre
      simpa using this
    rw [hs]
    simp only [List.length_append]
    omega

theorem fullArxiv_is_valid (s : List Char) (h : FullArxiv s) : arxiv_is_valid s = true := by
  show (match pymatchArxiv s with
    | some n => n == s.length
    | none => false) = true
  rw [fullArxiv_pymatch s h]
  simp

theorem arxiv_is_valid_fullArxiv (s : List Char) (h : arxiv_is_valid s = true) :
    FullArxiv s := by
  have e : arxiv_is_valid s = (match pymatchArxiv s with
    | some n => n == s.length
    | none => false) := rfl
  rw [e] at h
  cases hp : pymatchArxiv s with
  | none =>
    rw [hp] at h
    simp at h
  | some n =>
    rw [hp] at h
    have h2 : n = s.length := by simpa using h
    obtain ⟨h1, _, _⟩ := pymatchArxiv_sound s n hp
    rw [h2, List.take_length] at h1
    exact h1

theorem arxivFindallGo_nil : arxivFindallGo [] = [] := by
  rw [arxivFindallGo]

theorem arxivFindallGo_cons (c : Char) (rest : List Char) :
    arxivFindallGo (c :: rest) =
      (match pymatchArxiv (c :: rest) with
      | some n => (c :: rest).take n :: arxivFindallGo (rest.drop (n - 1))
      | none => arxivFindallGo rest) := by
  rw [arxivFindallGo]

theorem arxivFindallGo_mem : ∀ (fuel : Nat) (s : List Char), s.length ≤ fuel →
    ∀ m ∈ arxivFindallGo s, FullArxiv m := by
  intro fuel
  induction fuel with
  | zero =>
    intro s hs m hm
    have hnil : s = [] := by
      cases s with
      | nil => rfl
      | cons c rest => simp at hs
    subst hnil
    rw [arxivFindallGo_nil] at hm
    cases hm
  | succ fuel ih =>
    intro s hs m hm
    cases s with
    | nil =>
      rw [arxivFindallGo_nil] at hm
      cases hm
    | cons c rest =>
      rw [arxivFindallGo_cons] at hm
      simp only [List.length_cons] at hs
      cases hpm : pymatchArxiv (c :: rest) with
      | none =>
        rw [hpm] at hm
        exact ih rest (by omega) m hm
      | some n =>
        rw [hpm] at hm
        obtain ⟨hfull, hn1, hnle⟩ := pymatchArxiv_sound (c :: rest) n hpm
        rcases List.mem_cons.mp hm with h1 | h2
        · subst h1
          exact hfull
        · refine ih (rest.drop (n - 1)) ?_ m h2
          simp only [List.length_drop]
          omega

theorem arxivSub_nil : arxivSub [] = [] := by
  rw [arxivSub]

theorem arxivSub_cons (c : Char) (rest : List Char) :
    arxivSub (c :: rest) =
      (if (dropLitI arxivLit (c :: rest)).isSome then arxivSub (rest.drop 5)
       else c :: arxivSub rest) := by
  rw [arxivSub]

theorem arxivSub_no_hit : ∀ (fuel : Nat) (l : List Char), l.length ≤ fuel →
    (∀ i, dropLitI arxivLit (l.drop i) = none) → arxivSub l = l := by
  intro fuel
  induction fuel with
  | zero =>
    intro l hl _
    have hnil : l = [] := by
      cases l with
      | nil => rfl
      | cons c rest => simp at hl
    subst hnil
    exact arxivSub_nil
  | succ fuel ih =>
    intro l hl hno
    cases l with
    | nil => exact arxivSub_nil
    | cons c rest =>
      rw [arxivSub_cons]
      have h0 : dropLitI arxivLit (c :: rest) = none := by
        have := hno 0
        simpa using this
      rw [h0]
      rw [if_neg (by simp)]
      simp only [List.length_cons] at hl
      congr 1
      refine ih rest (by omega) ?_
      intro i
      have := hno (i + 1)
      simpa using this
theorem arxivSub_fullArxiv (m : List Char) (h : FullArxiv m) :
    FullArxiv (arxivSub m) := by
  obtain ⟨pre, core, hs, hpre, hcore⟩ := h
  have hsubcore : arxivSub core = core := arxivSub_no_hit core.length core
    (Nat.le_refl _) (fullCore_no_arxivLit core hcore)
  rcases hpre with hpre | hpre
  · subst hpre
    simp only [List.nil_append] at hs
    subst hs
    rw [hsubcore]
    exact ⟨[], m, by simp, Or.inl rfl, hcore⟩
  · have hplen : pre.length = 6 := by
      have := congrArg List.length hpre
      simpa using this
    cases hp : pre with
    | nil => rw [hp] at hplen; simp at hplen
    | cons p0 ptl =>
      rw [hp] at hplen
      simp only [List.length_cons] at hplen
      subst hs
      rw [hp, List.cons_append, arxivSub_cons]
      have hdl : dropLitI arxivLit (p0 :: (ptl ++ core)) = some core := by
        rw [← List.cons_append, ← hp]
        exact dropLitI_of_map_eq arxivLit pre core hpre
      rw [if_pos (by rw [hdl]; rfl)]
      rw [List.drop_left' (by omega)]
      rw [hsubcore]
      exact ⟨[], core, by simp, Or.inl rfl, hcore⟩

theorem arxiv_extract_valid (text m : List Char)
    (h : m ∈ arxiv_extract_from_text text) : arxiv_is_valid m = true := by
  unfold arxiv_extract_from_text at h
  unfold remove_duplicates at h
  rw [List.mem_dedup] at h
  rw [List.mem_map] at h
  obtain ⟨m0, hm0f, hm0⟩ := h
  have hm0find : m0 ∈ arxivFindallGo text := (List.mem_filter.mp hm0f).1
  have hfull : FullArxiv m0 :=
    arxivFindallGo_mem text.length text (Nat.le_refl _) m0 hm0find
  subst hm0
  exact fullArxiv_is_valid _ (arxivSub_fullArxiv m0 hfull)

theorem dropLit_some (lit : List Char) : ∀ (s r : List Char),
    dropLit lit s = some r → s = lit ++ r := by
  induction lit with
  | nil =>
    intro s r h
    simp only [dropLit, Option.some.injEq] at h
    subst h
    rfl
  | cons c cs ih =>
    intro s r h
    cases s with
    | nil => exact Option.noConfusion h
    | cons d ds =>
      simp only [dropLit] at h
      by_cases hcd : (c == d) = true
      · rw [if_pos hcd] at h
        have := ih ds r h
        subst this
        simp only [beq_iff_eq] at hcd
        rw [hcd]
        rfl
      · rw [if_neg hcd] at h
        exact Option.noConfusion h

theorem dropLit_of_append (lit r : List Char) : dropLit lit (lit ++ r) = some r := by
  induction lit with
  | nil => rfl
  | cons c cs ih =>
    simp only [List.cons_append, dropLit]
    rw [if_pos (by simp)]
    exact ih

theorem dropLit_none_of_head_ne (c : Char) (cs : List Char) (d : Char) (ds : List Char)
    (h : c ≠ d) : dropLit (c :: cs) (d :: ds) = none := by
  simp only [dropLit]
  rw [if_neg (by simpa using h)]

theorem halSuffixV_eq_zero_of_ne (c : Char) (rest : List Char) (hc : c ≠ 'v') :
    halSuffixV (c :: rest) = 0 := by
  show (match c :: rest with
    | 'v' :: r2 =>
      let run := r2.takeWhile Char.isDigit
      if run.length == 0 then 0 else 1 + run.length
    | _ => 0) = 0
  split
  · rename_i heq
    injection heq with h1 _
    exact absurd h1 hc
  · rfl

theorem halSuffixV_v_eq (r2 : List Char) :
    halSuffixV ('v' :: r2) =
      (if (r2.takeWhile Char.isDigit).length == 0 then 0
       else 1 + (r2.takeWhile Char.isDigit).length) := rfl

theorem halSuffixV_sound (u : List Char) :
    halSuffixV u ≤ u.length ∧
    (u.take (halSuffixV u) = [] ∨
      ∃ n, u.take (halSuffixV u) = 'v' :: n ∧ n ≠ [] ∧ ∀ c ∈ n, c.isDigit = true) := by
  cases u with
  | nil => exact ⟨Nat.le_refl _, Or.inl rfl⟩
  | cons c rest =>
    by_cases hc : c = 'v'
    · subst hc
      rw [halSuffixV_v_eq]
      by_cases hrun : ((rest.takeWhile Char.isDigit).length == 0) = true
      · rw [if_pos hrun]
        exact ⟨Nat.zero_le _, Or.inl rfl⟩
      · rw [if_neg hrun]
        simp only [beq_iff_eq] at hrun
        have hlen : (rest.takeWhile Char.isDigit).length ≤ rest.length :=
          (List.takeWhile_sublist _).length_le
        refine ⟨by simp only [List.length_cons]; omega, Or.inr ?_⟩
        refine ⟨rest.takeWhile Char.isDigit, ?_, ?_, ?_⟩
        · rw [show 1 + (rest.takeWhile Char.isDigit).length =
            (rest.takeWhile Char.isDigit).length + 1 from by omega]
          rw [List.take_succ_cons]
          congr 1
          exact (List.prefix_iff_eq_take.mp (List.takeWhile_prefix _)).symm
        · intro hcon
          rw [hcon] at hrun
          simp at hrun
        · intro c2 hc2
          exact List.mem_takeWhile_imp hc2
    · rw [halSuffixV_eq_zero_of_ne c rest hc]
      exact ⟨Nat.zero_le _, Or.inl rfl⟩

theorem halSuffix_eq_of_no_ver (u : List Char) (h : dropLit halVerLit u = none) :
    halSuffix u = halSuffixV u := by
  show (match dropLit halVerLit u with
    | some r2 =>
      let run := r2.takeWhile Char.isDigit
      if run.length == 0 then halSuffixV u else 10 + run.length
    | none => halSuffixV u) = halSuffixV u
  rw [h]

theorem halSuffix_eq_of_ver (u r2 : List Char) (h : dropLit halVerLit u = some r2) :
    halSuffix u =
      (if (r2.takeWhile Char.isDigit).length == 0 then halSuffixV u
       else 10 + (r2.takeWhile Char.isDigit).length) := by
  show (match dropLit halVerLit u with
    | some r2 =>
      let run := r2.takeWhile Char.isDigit
      if run.length == 0 then halSuffixV u else 10 + run.length
    | none => halSuffixV u) = _
  rw [h]

theorem halSuffix_sound (u : List Char) :
    halSuffix u ≤ u.length ∧
    (u.take (halSuffix u) = [] ∨
      (∃ n, u.take (halSuffix u) = halVerLit ++ n ∧ n ≠ [] ∧
        ∀ c ∈ n, c.isDigit = true) ∨
      (∃ n, u.take (halSuffix u) = 'v' :: n ∧ n ≠ [] ∧
        ∀ c ∈ n, c.isDigit = true)) := by
  cases hdl : dropLit halVerLit u with
  | none =>
    rw [halSuffix_eq_of_no_ver u hdl]
    obtain ⟨h1, h2⟩ := halSuffixV_sound u
    exact ⟨h1, h2.imp id Or.inr⟩
  | some r2 =>
    have hu : u = halVerLit ++ r2 := dropLit_some halVerLit u r2 hdl
    rw [halSuffix_eq_of_ver u r2 hdl]
    by_cases hrun : ((r2.takeWhile Char.isDigit).length == 0) = true
    · rw [if_pos hrun]
      have hz : halSuffixV u = 0 := by
        rw [hu]
        exact halSuffixV_eq_zero_of_ne ',' _ (by decide)
      rw [hz]
      exact ⟨Nat.zero_le _, Or.inl rfl⟩
    · rw [if_neg hrun]
      simp only [beq_iff_eq] at hrun
      have hlen : (r2.takeWhile Char.isDigit).length ≤ r2.length :=
        (List.takeWhile_sublist _).length_le
      subst hu
      constructor
      · simp only [List.length_append]
        have : halVerLit.length = 10 := rfl
        omega
      · refine Or.inr (Or.inl ⟨r2.takeWhile Char.isDigit, ?_, ?_, ?_⟩)
        · rw [show 10 + (r2.takeWhile Char.isDigit).length =
            halVerLit.length + (r2.takeWhile Char.isDigit).length from rfl]
          rw [take_add_split, List.take_left, List.drop_left]
          congr 1
          exact (List.prefix_iff_eq_take.mp (List.takeWhile_prefix _)).symm
        · intro hcon
          rw [hcon] at hrun
          simp at hrun
        · intro c2 hc2
          exact List.mem_takeWhile_imp hc2

theorem halSuffix_complete (u : List Char)
    (h : u = [] ∨
      (∃ n, u = halVerLit ++ n ∧ n ≠ [] ∧ ∀ c ∈ n, c.isDigit = true) ∨
      (∃ n, u = 'v' :: n ∧ n ≠ [] ∧ ∀ c ∈ n, c.isDigit = true)) :
    halSuffix u = u.length := by
  rcases h with h | ⟨n, hu, hn, hnd⟩ | ⟨n, hu, hn, hnd⟩
  · subst h
    rfl
  · subst hu
    rw [halSuffix_eq_of_ver _ n (dropLit_of_append halVerLit n)]
    rw [takeWhile_all _ _ hnd]
    rw [if_neg (by intro hcon; exact hn (List.eq_nil_of_length_eq_zero
      (by simpa using hcon)))]
    simp only [List.length_append]
    rfl
  · subst hu
    have hdl : dropLit halVerLit ('v' :: n) = none :=
      dropLit_none_of_head_ne ',' _ 'v' _ (by decide)
    rw [halSuffix_eq_of_no_ver _ hdl]
    rw [halSuffixV_v_eq]
    rw [takeWhile_all _ _ hnd]
    rw [if_neg (by intro hcon; exact hn (List.eq_nil_of_length_eq_zero
      (by simpa using hcon)))]
    simp only [List.length_cons]
    omega

theorem pymatchHAL_cons_eq (rest : List Char) :
    pymatchHAL ('h' :: 'a' :: 'l' :: '-' :: rest) =
      (if (rest.take 8).length == 8 && (rest.take 8).all Char.isDigit then
        some (12 + halSuffix (rest.drop 8))
      else none) := rfl

theorem pymatchHAL_sound (s : List Char) (n : Nat) (h : pymatchHAL s = some n) :
    FullHAL (s.take n) ∧ 1 ≤ n ∧ n ≤ s.length := by
  unfold pymatchHAL at h
  split at h
  case h_2 => exact Option.noConfusion h
  case h_1 rest =>
    have h' : (if ((rest.take 8).length == 8 && (rest.take 8).all Char.isDigit) = true
        then some (12 + halSuffix (rest.drop 8)) else none) = some n := h
    by_cases hc : ((rest.take 8).length == 8 && (rest.take 8).all Char.isDigit) = true
    · rw [if_pos hc] at h'
      injection h' with h'
      subst h'
      simp only [Bool.and_eq_true, beq_iff_eq, List.all_eq_true] at hc
      obtain ⟨hlen8, halld⟩ := hc
      have hrle : 8 ≤ rest.length := by
        have := List.length_take 8 rest
        omega
      obtain ⟨hsle, hshape⟩ := halSuffix_sound (rest.drop 8)
      refine ⟨?_, by omega, ?_⟩
      · rw [show 12 + halSuffix (rest.drop 8) =
          (8 + halSuffix (rest.drop 8)) + 1 + 1 + 1 + 1 from by omega]
        simp only [List.take_succ_cons]
        rw [take_add_split]
        refine ⟨rest.take 8, (rest.drop 8).take (halSuffix (rest.drop 8)),
          rfl, hlen8, ?_, ?_⟩
        · intro c hcm
          exact halld c hcm
        · exact hshape
      · simp only [List.length_cons, List.length_drop] at hsle ⊢
        omega
    · rw [if_neg hc] at h'
      exact Option.noConfusion h'

theorem pymatchHAL_complete (s : List Char) (h : FullHAL s) :
    pymatchHAL s = some s.length := by
  obtain ⟨ds, suf, hs, hds8, hdsd, hsuf⟩ := h
  subst hs
  rw [pymatchHAL_cons_eq]
  rw [List.take_left' hds8, List.drop_left' hds8]
  rw [if_pos (by
    simp only [Bool.and_eq_true, beq_iff_eq, List.all_eq_true]
    exact ⟨hds8, hdsd⟩)]
  rw [halSuffix_complete suf hsuf]
  congr 1
  simp only [List.length_cons, List.length_append]
  omega

theorem fullHAL_is_valid (s : List Char) (h : FullHAL s) : hal_is_valid s = true := by
  show (match pymatchHAL s with
    | some n => n == s.length
    | none => false) = true
  rw [pymatchHAL_complete s h]
  simp

theorem hal_is_valid_fullHAL (s : List Char) (h : hal_is_valid s = true) : FullHAL s := by
  have e : hal_is_valid s = (match pymatchHAL s with
    | some n => n == s.length
    | none => false) := rfl
  rw [e] at h
  cases hp : pymatchHAL s with
  | none =>
    rw [hp] at h
    simp at h
  | some n =>
    rw [hp] at h
    have h2 : n = s.length := by simpa using h
    obtain ⟨h1, _, _⟩ := pymatchHAL_sound s n hp
    rw [h2, List.take_length] at h1
    exact h1

theorem isbn10Vals_singleton (c : Char) :
    isbn10Vals [c] = (if c.isDigit then some [c.toNat - 48]
      else if c == 'X' then some [10] else none) := rfl

theorem isbn10Vals_cons2 (c c2 : Char) (rest : List Char) :
    isbn10Vals (c :: c2 :: rest) =
      (if c.isDigit then (isbn10Vals (c2 :: rest)).map (fun vs => (c.toNat - 48) :: vs)
       else none) := rfl

theorem isbn10Vals_chars : ∀ (s : List Char) (vs : List Nat),
    isbn10Vals s = some vs → ∀ c ∈ s, (c.isDigit || c == 'X') = true := by
  intro s
  induction s with
  | nil =>
    intro vs _ c hc
    exact absurd hc (List.not_mem_nil _)
  | cons c rest ih =>
    cases rest with
    | nil =>
      intro vs h d hd
      rw [List.mem_singleton] at hd
      subst hd
      rw [isbn10Vals_singleton] at h
      by_cases hcd : d.isDigit = true
      · simp [hcd]
      · rw [if_neg hcd] at h
        by_cases hcx : (d == 'X') = true
        · simp [hcx]
        · rw [if_neg hcx] at h
          exact Option.noConfusion h
    | cons c2 rest2 =>
      intro vs h d hd
      rw [isbn10Vals_cons2] at h
      by_cases hcd : c.isDigit = true
      · rw [if_pos hcd] at h
        cases hrec : isbn10Vals (c2 :: rest2) with
        | none =>
          rw [hrec] at h
          exact Option.noConfusion h
        | some vs' =>
          rcases List.mem_cons.mp hd with h1 | h1
          · subst h1
            simp [hcd]
          · exact ih vs' hrec d h1
      · rw [if_neg hcd] at h
        exact Option.noConfusion h

theorem isbnUpperLast_of_last_ne (l : List Char)
    (h : ∀ d, l.getLast? = some d → (d == 'x') = false) : isbnUpperLast l = l := by
  show (match l.getLast? with
    | some c => if c == 'x' then l.dropLast ++ ['X'] else l
    | none => l) = l
  cases hl : l.getLast? with
  | none => rfl
  | some d =>
    show (if d == 'x' then l.dropLast ++ ['X'] else l) = l
    rw [if_neg (by simp [h d hl])]

theorem keep_not_lower_x (c : Char) (h : (c.isDigit || c == 'X') = true) :
    isbnKeepChar c = true ∧ (c == 'x') = false := by
  simp only [Bool.or_eq_true, beq_iff_eq] at h
  rcases h with h | h
  · refine ⟨by simp [isbnKeepChar, h], ?_⟩
    simp only [beq_eq_false_iff_ne, ne_eq]
    intro hcon
    rw [hcon] at h
    exact Bool.noConfusion h
  · subst h
    exact ⟨by decide, by decide⟩

theorem isbn_canonical_fix (c : List Char)
    (h : is_isbn10 c = true ∨ is_isbn13 c = true) : isbn_canonical c = c := by
  have hkeep : ∀ d ∈ c, (d.isDigit || d == 'X') = true := by
    rcases h with h | h
    · simp only [is_isbn10, Bool.and_eq_true] at h
      obtain ⟨_, h2⟩ := h
      cases hv : isbn10Vals c with
      | none => rw [hv] at h2; exact absurd h2 (by simp)
      | some vs => exact isbn10Vals_chars c vs hv
    · simp only [is_isbn13, Bool.and_eq_true, List.all_eq_true] at h
      intro d hd
      simp [h.1.1.2 d hd]
  have hfilter : c.filter isbnKeepChar = c :=
    List.filter_eq_self.mpr (fun d hd => (keep_not_lower_x d (hkeep d hd)).1)
  unfold isbn_canonical
  rw [hfilter]
  apply isbnUpperLast_of_last_ne
  intro d hd
  have hdm : d ∈ c := by
    rw [List.getLast?_eq_getElem?] at hd
    exact List.getElem?_mem hd
  exact (keep_not_lower_x d (hkeep d hdm)).2

theorem isbn_extract_valid (mask : Option (List Char) → List Char)
    (isbnlike : List Char → List (List Char)) (text : List Char) (i : List Char)
    (h : i ∈ isbn_extract_from_text isbnlike text) : isbn_is_valid mask i = true := by
  unfold isbn_extract_from_text at h
  rw [List.reduceOption_mem_iff] at h
  have h2 := (List.mem_filter.mp h).1
  rw [List.mem_map] at h2
  obtain ⟨x, _, hx⟩ := h2
  unfold get_canonical_isbn at hx
  by_cases hn : notisbn x = true
  · rw [if_pos hn] at hx
    exact Option.noConfusion hx
  · rw [if_neg hn] at hx
    injection hx with hx
    have h1013 : is_isbn10 (isbn_canonical x) = true ∨ is_isbn13 (isbn_canonical x) = true := by
      cases hab : (is_isbn10 (isbn_canonical x) || is_isbn13 (isbn_canonical x)) with
      | false =>
        exfalso
        apply hn
        unfold notisbn
        rw [hab]
        rfl
      | true => simpa using hab
    rw [hx] at h1013
    have hfix : isbn_canonical i = i := isbn_canonical_fix i h1013
    have hni : notisbn i = false := by
      unfold notisbn
      rw [hfix]
      rcases h1013 with hh | hh <;> simp [hh]
    unfold isbn_is_valid
    rw [hni]
    unfold get_canonical_isbn
    rw [hni]
    rw [hfix]
    simp

theorem bblSplitGo_nil (seg : List Char) : bblSplitGo [] seg = [seg.reverse] := by
  rw [bblSplitGo]

theorem bblSplitGo_cons (c : Char) (rest seg : List Char) :
    bblSplitGo (c :: rest) seg =
      (match bibitemMatchLen (c :: rest) with
      | some n => seg.reverse :: bblSplitGo (rest.drop (n - 1)) []
      | none => bblSplitGo rest (c :: seg)) := by
  rw [bblSplitGo]

theorem bibitemCount_nil : bibitemCount [] = 0 := by
  rw [bibitemCount]

theorem bibitemCount_cons (c : Char) (rest : List Char) :
    bibitemCount (c :: rest) =
      (match bibitemMatchLen (c :: rest) with
      | some n => 1 + bibitemCount (rest.drop (n - 1))
      | none => bibitemCount rest) := by
  rw [bibitemCount]

theorem bblSplitGo_length : ∀ (fuel : Nat) (s seg : List Char), s.length ≤ fuel →
    (bblSplitGo s seg).length = bibitemCount s + 1 := by
  intro fuel
  induction fuel with
  | zero =>
    intro s seg hs
    have hnil : s = [] := by
      cases s with
      | nil => rfl
      | cons c rest => simp at hs
    subst hnil
    rw [bblSplitGo_nil, bibitemCount_nil]
    rfl
  | succ fuel ih =>
    intro s seg hs
    cases s with
    | nil =>
      rw [bblSplitGo_nil, bibitemCount_nil]
      rfl
    | cons c rest =>
      rw [bblSplitGo_cons, bibitemCount_cons]
      simp only [List.length_cons] at hs
      cases hm : bibitemMatchLen (c :: rest) with
      | some n =>
        show (seg.reverse :: bblSplitGo (rest.drop (n - 1)) []).length =
          1 + bibitemCount (rest.drop (n - 1)) + 1
        simp only [List.length_cons]
        rw [ih (rest.drop (n - 1)) [] (by simp only [List.length_drop]; omega)]
        omega
      | none =>
        exact ih rest (c :: seg) (by omega)

theorem bbl_citation_count (delatex : PyStr → PyStr) (bbl : PyStr) :
    (bbl_get_plaintext_citations delatex bbl).length = bibitemCount bbl := by
  unfold bbl_get_plaintext_citations
  simp only [List.length_map, List.length_drop]
  rw [bblSplitGo_length bbl.length bbl [] (Nat.le_refl _)]
  omega

theorem direct_pass_nil (dois : DoiMap) (queue : List PyStr) :
    direct_pass [] dois queue = .ok (dois, queue) := rfl

theorem direct_pass_cons_hit (cs : List PyStr) (dois : DoiMap) (queue : List PyStr)
    (c d : PyStr) (ds : List PyStr) (h : doi_extract_from_text c = d :: ds) :
    direct_pass (c :: cs) dois queue =
      direct_pass cs (dictSet dois c (some d)) queue := by
  rw [direct_pass, h]
  rfl

theorem direct_pass_cons_empty (cs : List PyStr) (dois : DoiMap) (queue : List PyStr)
    (c : PyStr) (h : doi_extract_from_text c = []) :
    direct_pass (c :: cs) dois queue = .error .indexError := by
  rw [direct_pass, h]
  rfl

theorem direct_pass_queue_invariant : ∀ (cs : List PyStr) (dois : DoiMap)
    (queue : List PyStr) (res : DoiMap × List PyStr),
    direct_pass cs dois queue = .ok res → res.2 = queue := by
  intro cs
  induction cs with
  | nil =>
    intro dois queue res h
    rw [direct_pass_nil] at h
    injection h with h
    rw [← h]
  | cons c cs ih =>
    intro dois queue res h
    cases hext : doi_extract_from_text c with
    | nil =>
      rw [direct_pass_cons_empty cs dois queue c hext] at h
      exact Except.noConfusion h
    | cons d ds =>
      rw [direct_pass_cons_hit cs dois queue c d ds hext] at h
      exact ih _ _ _ h

/-! ## The claims -/

theorem direct_pass_error_of_nodoi : ∀ (pre : List PyStr) (c : PyStr)
    (post : List PyStr) (dois : DoiMap) (queue : List PyStr),
    (∀ p ∈ pre, ∃ d ds, doi_extract_from_text p = d :: ds) →
    doi_extract_from_text c = [] →
    direct_pass (pre ++ c :: post) dois queue = .error .indexError := by
  intro pre
  induction pre with
  | nil =>
    intro c post dois queue _ hc
    exact direct_pass_cons_empty post dois queue c hc
  | cons p pre ih =>
    intro c post dois queue hpre hc
    obtain ⟨d, ds, hd⟩ := hpre p (List.mem_cons_self _ _)
    rw [List.cons_append, direct_pass_cons_hit _ _ _ p d ds hd]
    exact ih c post _ queue (fun q hq => hpre q (List.mem_cons_of_mem _ hq)) hc

unseal parseDotRuns doiFindallGo in
/-- C1: the specification claims the map returned by `get_cited_DOIs`
contains every raw citation of the input exactly once as a key and that
no citation is ever silently dropped.  This fails for the shipped code:
as soon as one citation contains no DOI, `doi.extract_from_text` returns
`[]`, the guard `if matched_DOIs is not None:` is still true (a list is
never `None`), and `matched_DOIs[0]` raises `IndexError` — the resolver
returns no map at all, whatever the oracle (first conjunct: any
citation list whose first DOI-less citation is reached; second
conjunct: the concrete one-citation run through the plaintext adapter). -/
theorem claim_C1 (oracle : CrossrefOracle) :
    (∀ (pre : List PyStr) (c : PyStr) (post : List PyStr),
      (∀ p ∈ pre, ∃ d ds, doi_extract_from_text p = d :: ds) →
      doi_extract_from_text c = [] →
      get_cited_DOIs_of_citations oracle (pre ++ c :: post) =
        .error .indexError) ∧
    plaintext_get_cited_DOIs_content oracle
      (String.data "Doe, J., An article without an identifier, 2015.") =
      .error .indexError := by
  constructor
  · intro pre c post hpre hc
    unfold get_cited_DOIs_of_citations
    rw [direct_pass_error_of_nodoi pre c post [] [] hpre hc]
  · rfl

unseal parseDotRuns doiFindallGo in
theorem claim_C1_witness :
    get_cited_DOIs_of_citations (fun _ => none)
      [String.data "An article without an identifier"] = .error .indexError :=
  (claim_C1 (fun _ => none)).1 []
    (String.data "An article without an identifier") []
    (fun _ hp => absurd hp (List.not_mem_nil _)) rfl

/-- C2: the first half of the claim holds — a citation whose DOI
extraction yields one or more matches has its first match recorded and
is removed from further processing (first conjunct).  The rest is
false in the shipped code: because `if matched_DOIs is not None:` is
always true, a citation with no DOI match raises `IndexError` at
`matched_DOIs[0]` instead of falling through to repository-ID
extraction (second conjunct), so the arXiv branch and the URL-stripping
push onto the residual queue are unreachable: a direct pass that
returns at all leaves the queue exactly as it found it (third
conjunct) — no citation is ever queued for batch submission. -/
theorem claim_C2 :
    (∀ (cs : List PyStr) (dois : DoiMap) (queue : List PyStr) (c d : PyStr)
      (ds : List PyStr), doi_extract_from_text c = d :: ds →
      direct_pass (c :: cs) dois queue =
        direct_pass cs (dictSet dois c (some d)) queue) ∧
    (∀ (cs : List PyStr) (dois : DoiMap) (queue : List PyStr) (c : PyStr),
      doi_extract_from_text c = [] →
      direct_pass (c :: cs) dois queue = .error .indexError) ∧
    (∀ (cs : List PyStr) (dois : DoiMap) (queue : List PyStr)
      (res : DoiMap × List PyStr),
      direct_pass cs dois queue = .ok res → res.2 = queue) :=
  ⟨direct_pass_cons_hit, direct_pass_cons_empty, direct_pass_queue_invariant⟩

unseal parseDotRuns doiFindallGo in
theorem claim_C2_witness :
    direct_pass [String.data "See 10.1209/0295-5075/111/40005 for details"] [] [] =
      direct_pass []
        (dictSet [] (String.data "See 10.1209/0295-5075/111/40005 for details")
          (some (String.data "10.1209/0295-5075/111/40005"))) [] ∧
    direct_pass [String.data "An article without an identifier"] [] [] =
      .error .indexError ∧
    ((([] : DoiMap), ([] : List PyStr)).2 = ([] : List PyStr)) :=
  ⟨claim_C2.1 [] [] [] (String.data "See 10.1209/0295-5075/111/40005 for details")
      (String.data "10.1209/0295-5075/111/40005") [] rfl,
   claim_C2.2.1 [] [] [] (String.data "An article without an identifier") rfl,
   claim_C2.2.2 [] [] [] ([], []) rfl⟩

theorem merge_batches_fail (oracle : CrossrefOracle) (b : List PyStr)
    (bs : List (List PyStr)) (dois : DoiMap) (h : oracle b = none) :
    merge_batches oracle (b :: bs) dois =
      merge_batches oracle bs (b.foldl (fun m i => dictSet m i none) dois) := by
  rw [merge_batches, h]

/-- C3: the chunk-failure handler as written does store `None` for every
citation of a failed chunk, with no retry (second conjunct; third
conjunct: a failed 3-item chunk of distinct citations yields exactly
those three `None` entries).  But the claim that no exception escapes is
false: both citations modules open with `from requests.exception import
RequestException`, and the `requests` package defines
`requests.exceptions` (plural — the repository's other modules import
it correctly), so loading `libbmc.citations.plaintext` or
`libbmc.citations.bbl` raises `ImportError` before any code can run
(first conjunct), and the `except` clause naming `RequestException` is
unreachable. -/
theorem claim_C3 :
    citations_module_import = .error .importError ∧
    (∀ (oracle : CrossrefOracle) (b : List PyStr) (bs : List (List PyStr))
      (dois : DoiMap), oracle b = none →
      merge_batches oracle (b :: bs) dois =
        merge_batches oracle bs (b.foldl (fun m i => dictSet m i none) dois)) ∧
    (∀ (oracle : CrossrefOracle) (c1 c2 c3 : PyStr), oracle [c1, c2, c3] = none →
      c1 ≠ c2 → c1 ≠ c3 → c2 ≠ c3 →
      merge_batches oracle [[c1, c2, c3]] [] =
        [(c1, none), (c2, none), (c3, none)]) := by
  refine ⟨rfl, merge_batches_fail, ?_⟩
  intro oracle c1 c2 c3 h h12 h13 h23
  rw [merge_batches_fail oracle _ _ _ h]
  show (dictSet (dictSet (dictSet [] c1 none) c2 none) c3 none) = _
  have e1 : dictSet [] c1 none = [(c1, none)] := by
    unfold dictSet
    rw [if_neg (by simp)]
    rfl
  have e2 : dictSet [(c1, none)] c2 none = [(c1, none), (c2, none)] := by
    unfold dictSet
    rw [if_neg (by simp [h12])]
    rfl
  have e3 : dictSet [(c1, none), (c2, none)] c3 none =
      [(c1, none), (c2, none), (c3, none)] := by
    unfold dictSet
    rw [if_neg (by simp [h13, h23])]
    rfl
  rw [e1, e2, e3]

theorem claim_C3_witness :
    citations_module_import = .error .importError ∧
    merge_batches (fun _ => none) [[['a'], ['b'], ['c']]] [] =
      [(['a'], none), (['b'], none), (['c'], none)] :=
  ⟨claim_C3.1,
   claim_C3.2.2 (fun _ => none) ['a'] ['b'] ['c'] rfl (by decide) (by decide)
     (by decide)⟩

/-- C4: chunking a residual queue of `K` citations with the resolver's
maximum chunk size 10 yields exactly `⌈K/10⌉ = (K + 9) / 10` chunks,
each of size at most 10, whose in-order concatenation is the queue; the
final chunk has `K mod 10` items (or 10 when `K` is a positive exact
multiple of 10), and the generator model terminates, yielding no chunk
for an empty queue. -/
theorem claim_C4 {α : Type} (l : List α) :
    (batch l CROSSREF_MAX_BATCH_SIZE).length = (l.length + 9) / 10 ∧
    (∀ b ∈ batch l CROSSREF_MAX_BATCH_SIZE, b.length ≤ 10) ∧
    (batch l CROSSREF_MAX_BATCH_SIZE).flatten = l ∧
    (∀ b, (batch l CROSSREF_MAX_BATCH_SIZE).getLast? = some b →
      b.length = if l.length % 10 = 0 then 10 else l.length % 10) ∧
    (l.length = 0 → batch l CROSSREF_MAX_BATCH_SIZE = []) := by
  obtain ⟨h1, h2, h3, h4⟩ := batch_ten_spec l.length l (Nat.le_refl _)
  refine ⟨h1, h2, h3, h4, fun h0 => ?_⟩
  have hnil : l = [] := List.eq_nil_of_length_eq_zero h0
  subst hnil
  exact batch_nil α

unseal batch in
theorem claim_C4_witness :
    (batch (List.range 12) CROSSREF_MAX_BATCH_SIZE).length = 2 ∧
    (batch (List.range 12) CROSSREF_MAX_BATCH_SIZE).flatten = List.range 12 := by
  have h := claim_C4 (List.range 12)
  refine ⟨?_, h.2.2.1⟩
  rw [h.1]
  decide

unseal parseDotRuns doiFindallGo batch in
/-- C5: the claimed scenario passes the one-element LIST
`["See 10.1209/0295-5075/111/40005 for details"]` to
`plaintext.get_cited_DOIs`.  On a list input the variable
`plaintext_citations` is never assigned (its only assignment is guarded
by `if not isinstance(file, list):`), so the loop header raises
`UnboundLocalError` and no map is returned (first conjunct).  The
resolution loop itself, run on that citation list (as the content path
would), does produce exactly the claimed one-entry map with the oracle
never consulted — zero network calls, for every oracle (second
conjunct). -/
theorem claim_C5 (oracle : CrossrefOracle) :
    plaintext_get_cited_DOIs_list oracle
      [String.data "See 10.1209/0295-5075/111/40005 for details"] =
      .error .nameError ∧
    get_cited_DOIs_of_citations oracle
      [String.data "See 10.1209/0295-5075/111/40005 for details"] =
      .ok [(String.data "See 10.1209/0295-5075/111/40005 for details",
        some (String.data "10.1209/0295-5075/111/40005"))] :=
  ⟨rfl, rfl⟩

/-- C6: for each of the three schemes — DOI, arXiv (preprint
repository) and HAL (institutional repository) — `is_valid` returns
true exactly on the strings that match the scheme's pattern in full
(anchored full match, stated by the specification-side predicates
`FullDOI`, `FullArxiv`, `FullHAL`); a string merely containing a match
as a proper substring is rejected, since `is_valid` compares the
matched prefix's length with the whole string's. -/
theorem claim_C6 (s : List Char) :
    (doi_is_valid s = true ↔ FullDOI s) ∧
    (arxiv_is_valid s = true ↔ FullArxiv s) ∧
    (hal_is_valid s = true ↔ FullHAL s) :=
  ⟨⟨is_valid_fullDOI s, fullDOI_is_valid s⟩,
   ⟨arxiv_is_valid_fullArxiv s, fullArxiv_is_valid s⟩,
   ⟨hal_is_valid_fullHAL s, fullHAL_is_valid s⟩⟩

/-- C7: for every input text, every identifier returned by
`extract_from_text` passes the same scheme's `is_valid` — for DOIs, for
arXiv identifiers (whose optional case-insensitive `arxiv:` prefix is
stripped by the extraction's `re.sub`), and for ISBNs (returned in
`isbnlib` canonical digit-only form), the latter for every behaviour of
the third-party candidate scanner `get_isbnlike` and hyphenator
`mask`. -/
theorem claim_C7 (mask : Option (List Char) → List Char)
    (isbnlike : List Char → List (List Char)) (text i : List Char) :
    (i ∈ doi_extract_from_text text → doi_is_valid i = true) ∧
    (i ∈ arxiv_extract_from_text text → arxiv_is_valid i = true) ∧
    (i ∈ isbn_extract_from_text isbnlike text → isbn_is_valid mask i = true) :=
  ⟨fun h => doi_extract_valid text i h,
   fun h => arxiv_extract_valid text i h,
   fun h => isbn_extract_valid mask isbnlike text i h⟩

unseal parseDotRuns doiFindallGo arxivFindallGo arxivSub in
theorem claim_C7_witness :
    doi_is_valid (String.data "10.1209/0295-5075/111/40005") = true ∧
    arxiv_is_valid (String.data "1506.06690") = true ∧
    isbn_is_valid (fun _ => []) (String.data "9783161484100") = true :=
  ⟨(claim_C7 (fun _ => []) (fun _ => [])
      (String.data "See 10.1209/0295-5075/111/40005")
      (String.data "10.1209/0295-5075/111/40005")).1 (by decide),
   (claim_C7 (fun _ => []) (fun _ => []) (String.data "arXiv:1506.06690")
      (String.data "1506.06690")).2.1 (by decide),
   (claim_C7 (fun _ => []) (fun _ => [String.data "978-3-16-148410-0"])
      (String.data "") (String.data "9783161484100")).2.2 (by decide)⟩

/-- C8: corrected.  The adapter maps `clean_whitespaces` over ALL lines
of its input — the source has no filtering of empty or whitespace-only
lines, so each such line contributes an empty-string citation
(`claim_C8_counterexample`).  What does hold, proved here, is one
whitespace-cleaned citation per input LINE, order preserved: the output
has exactly one element per line, and the `i`-th citation is
`clean_whitespaces` of the `i`-th line. -/
theorem claim_C8 (content : PyStr) :
    (plaintext_get_plaintext_citations content).length =
      (pySplitlines content).length ∧
    ∀ i : Nat, (plaintext_get_plaintext_citations content)[i]? =
      ((pySplitlines content)[i]?).map clean_whitespaces := by
  unfold plaintext_get_plaintext_citations
  refine ⟨List.length_map _ _, fun i => ?_⟩
  simp

/-- C8 counterexample: the input `"a\n\nb"` has an empty second line;
the adapter returns three citations with the empty string in the
middle, so empty lines do contribute an element, contrary to the
specification sentence. -/
theorem claim_C8_counterexample :
    pySplitlines ('a' :: '\n' :: '\n' :: 'b' :: []) = [['a'], [], ['b']] ∧
    plaintext_get_plaintext_citations ('a' :: '\n' :: '\n' :: 'b' :: []) =
      [['a'], [], ['b']] :=
  ⟨rfl, rfl⟩

/-- C9: splitting a LaTeX bibliography block on `\bibitem\x7b...\x7d`
markers yields exactly one citation per marker — the segment before the
first marker is discarded by the `[1:]`, and `bibitemCount` counts the
non-overlapping leftmost marker matches — and a block with zero markers
yields the empty list. -/
theorem claim_C9 (delatex : PyStr → PyStr) (bbl : PyStr) :
    (bbl_get_plaintext_citations delatex bbl).length = bibitemCount bbl ∧
    (bibitemCount bbl = 0 → bbl_get_plaintext_citations delatex bbl = []) := by
  refine ⟨bbl_citation_count delatex bbl, fun h0 => ?_⟩
  have h := bbl_citation_count delatex bbl
  rw [h0] at h
  exact List.eq_nil_of_length_eq_zero h

unseal bblSplitGo bibitemCount endbibSub in
theorem claim_C9_witness :
    (bbl_get_plaintext_citations id
      (String.data "pre \\bibitem\x7ba\x7dfoo \\bibitem\x7bb\x7dbar")).length =
      bibitemCount
        (String.data "pre \\bibitem\x7ba\x7dfoo \\bibitem\x7bb\x7dbar") ∧
    bbl_get_plaintext_citations id (String.data "no markers here") = [] :=
  ⟨(claim_C9 id _).1, (claim_C9 id _).2 rfl⟩

/-- C10: `clean_whitespaces` returns a string in normal form — its
first and last characters are not whitespace, no two adjacent
characters are both whitespace, and every whitespace character in it is
a plain space — and it is idempotent; consequently every citation
produced by the plaintext adapter or the bbl adapter (both end in
`clean_whitespaces`) is a fixed point of `clean_whitespaces`. -/
theorem claim_C10 (s : PyStr) :
    (∀ c, (clean_whitespaces s).head? = some c → isPySpace c = false) ∧
    (∀ c, (clean_whitespaces s).getLast? = some c → isPySpace c = false) ∧
    noAdjWS (clean_whitespaces s) = true ∧
    (∀ c ∈ clean_whitespaces s, isPySpace c = true → c = ' ') ∧
    clean_whitespaces (clean_whitespaces s) = clean_whitespaces s ∧
    (∀ (content cit : PyStr), cit ∈ plaintext_get_plaintext_citations content →
      clean_whitespaces cit = cit) ∧
    (∀ (delatex : PyStr → PyStr) (bbl cit : PyStr),
      cit ∈ bbl_get_plaintext_citations delatex bbl →
      clean_whitespaces cit = cit) := by
  refine ⟨joinSpace_head_not_ws _ (clean_whitespaces_tokens s),
    joinSpace_getLast_not_ws _ (clean_whitespaces_tokens s),
    noAdjWS_joinSpace _ (clean_whitespaces_tokens s),
    joinSpace_ws_is_space _ (clean_whitespaces_tokens s),
    clean_whitespaces_idem s, ?_, ?_⟩
  · intro content cit hc
    unfold plaintext_get_plaintext_citations at hc
    rw [List.mem_map] at hc
    obtain ⟨line, _, hl⟩ := hc
    rw [← hl]
    exact clean_whitespaces_idem line
  · intro delatex bbl cit hc
    have e : bbl_get_plaintext_citations delatex bbl =
        (((bblSplitGo bbl []).drop 1).map (fun i => pyStrip (endbibSub i))).map
          (fun b => clean_whitespaces (delatex b)) := rfl
    rw [e, List.mem_map] at hc
    obtain ⟨b, _, hb⟩ := hc
    rw [← hb]
    exact clean_whitespaces_idem _

theorem claim_C10_witness :
    isPySpace 'a' = false ∧
    isPySpace 'b' = false ∧
    noAdjWS (clean_whitespaces (String.data " a  b ")) = true ∧
    clean_whitespaces (clean_whitespaces (String.data " a  b ")) =
      clean_whitespaces (String.data " a  b ") ∧
    clean_whitespaces ['a'] = ['a'] :=
  ⟨(claim_C10 (String.data " a  b ")).1 'a' rfl,
   (claim_C10 (String.data " a  b ")).2.1 'b' rfl,
   (claim_C10 (String.data " a  b ")).2.2.1,
   (claim_C10 (String.data " a  b ")).2.2.2.2.1,
   (claim_C10 ['a']).2.2.2.2.2.1 ['a'] ['a'] (by decide)⟩
